import Mathlib

/-!
# Verification of the clemp assembly/merge engine

A shallow embedding of the core of `clemp` (clone-and-configure tool for the
claude-template repository) and proofs about it.

The embedding follows `src/lib.rs` (current core: language resolution, MCP
assembly, hook/settings merging, the staged `run_setup` with its pre-flight
conflict check) and `src/main.rs` (the binary's flow, including its
remove-scratch-tree-on-error handler).

Modelling conventions:
* The filesystem is a flat association list from paths (`List String` of
  components) to nodes; a node is a directory marker or a file.  A file's
  content is either raw text or an already-parsed JSON value (standing for
  bytes that parse as that value); `serde_json` parsing of a file is modelled
  by matching on that content.
* JSON objects are insertion-ordered association lists; `Map::insert`
  replaces the value of an existing key in place and appends new keys, and
  `Map::extend` folds `insert` (serde_json with preserve_order).
* `anyhow` error values are modelled by an inductive carrying exactly the
  data interpolated into the corresponding `bail!`/`context` format string.
* The minijinja engine (`env.render_str`) is an explicit function parameter:
  theorems quantify over every possible renderer.
* Process side effects that produce no value (println!, eprintln! warnings)
  are dropped; `stdin` confirmation is a boolean parameter.
-/

namespace Clemp

/-! ## JSON values (serde_json::Value with preserve_order maps) -/

/-! ## String helpers (modelling Rust `str` operations on the ASCII range) -/

/-! ## Language normalization (`normalize_language`, lib.rs) -/

inductive JValue where
  | null : JValue
  | bool (b : Bool) : JValue
  | num (n : Int) : JValue
  | str (s : String) : JValue
  | arr (xs : List JValue) : JValue
  | obj (kvs : List (String × JValue)) : JValue

abbrev JObj := List (String × JValue)

/-- `Map::get` — first binding for the key. -/
def objGet (o : JObj) (k : String) : Option JValue :=
  (o.find? (fun e => e.1 == k)).map (·.2)

/-- `Map::insert`: replace the value of an existing key in place, else append.
(serde maps have unique keys, so replacing the first binding is replacing the
binding.) -/
def objInsert : JObj → String → JValue → JObj
  | [], k, v => [(k, v)]
  | e :: rest, k, v => if e.1 == k then (k, v) :: rest else e :: objInsert rest k v

/-- `Map::extend`: insert every pair of `src` into `dest` in order. -/
def objExtend (dest src : JObj) : JObj :=
  src.foldl (fun acc e => objInsert acc e.1 e.2) dest

/-- First-some choice on options (used to state override precedence). -/
def optOr {α : Type} : Option α → Option α → Option α
  | some v, _ => some v
  | none, b => b

/-- The value the last binding of `k` in the pair list `ps` carries, if any:
"later overwrites earlier on a same-named key". -/
def lastDef (ps : JObj) (k : String) : Option JValue :=
  ((ps.filter (fun e => e.1 == k)).getLast?).map (·.2)

/-- One character of `str::to_lowercase` (ASCII part of the Unicode table:
`A`-`Z` map to `a`-`z`, everything else in this fragment is fixed). -/
def lowerChar (c : Char) : Char :=
  if 65 ≤ c.toNat ∧ c.toNat ≤ 90 then Char.ofNat (c.toNat + 32) else c

/-- `str::to_lowercase`. -/
def lowerStr (s : String) : String :=
  ⟨s.data.map lowerChar⟩

/-- The fixed alias table of `normalize_language` as alias/canonical pairs,
one pair per pattern alternative, in source order. -/
def aliasPairs : List (String × String) :=
  [("ts", "typescript"), ("typescript", "typescript"),
   ("js", "javascript"), ("javascript", "javascript"),
   ("rs", "rust"), ("rust", "rust"),
   ("py", "python"), ("python", "python"),
   ("swift", "swift"),
   ("cs", "csharp"), ("csharp", "csharp"), ("c#", "csharp"),
   ("cpp", "cplusplus"), ("cplusplus", "cplusplus"), ("c++", "cplusplus"),
   ("html", "html"),
   ("svelte", "svelte"),
   ("go", "go"), ("golang", "go"),
   ("java", "java"),
   ("rb", "ruby"), ("ruby", "ruby")]

/-- Sequential pattern match of the lowercased token against the table. -/
def aliasTable (s : String) : Option String :=
  (aliasPairs.find? (fun e => e.1 == s)).map (·.2)

/-- `normalize_language`: alias-table lookup on the lowercased token. -/
def normalize_language (input : String) : Option String :=
  aliasTable (lowerStr input)

/-- The canonical identifier `resolve_language` computes:
`normalize_language(input).map(String::from).unwrap_or_else(|| input.to_lowercase())`. -/
def canonicalOf (input : String) : String :=
  (normalize_language input).getD (lowerStr input)

/-- ASCII whitespace (the fragment of `char::is_whitespace` the claims
exercise). -/
def isAsciiWs (c : Char) : Bool :=
  c = ' ' || c = '\t' || c = '\n' || c = '\r'

/-- `str::trim`. -/
def trimStr (s : String) : String :=
  ⟨((s.data.dropWhile isAsciiWs).reverse.dropWhile isAsciiWs).reverse⟩

/-- `str::ends_with`. -/
def endsWithStr (s suffix : String) : Bool :=
  suffix.data.reverse.isPrefixOf s.data.reverse

/-- Lexicographic byte/scalar order on names (`OsString` ordering). -/
def charListLt : List Char → List Char → Bool
  | [], [] => false
  | [], _ :: _ => true
  | _ :: _, [] => false
  | a :: as, b :: bs => if a < b then true else if b < a then false else charListLt as bs

def strLtB (a b : String) : Bool :=
  charListLt a.data b.data

/-- Split a character list on a separator character (`str::lines` core). -/
def splitOnChar (sep : Char) (l : List Char) : List (List Char) :=
  l.foldr
    (fun x acc =>
      match acc with
      | a :: rest => if x = sep then [] :: a :: rest else (x :: a) :: rest
      | [] => [[x]])
    [[]]

/-- `str::replace('-', "_")`. -/
def replaceDashUnderscore (s : String) : String :=
  ⟨s.data.map (fun c => if c = '-' then '_' else c)⟩

/-- Stable insertion into a ≤-sorted list: an element goes after the ones it
does not strictly precede (models the stable `sort_by_key`). -/
def insertSorted (x : String) : List String → List String
  | [] => [x]
  | y :: ys => if strLtB x y then x :: y :: ys else y :: insertSorted x ys

/-- `Vec::sort_by_key(file_name)` — stable sort by name. -/
def sortStrings (l : List String) : List String :=
  l.foldl (fun acc x => insertSorted x acc) []

/-- Index of the last `.` in the name, if any. -/
def lastDotIdx (cs : List Char) : Option Nat :=
  match cs.reverse.findIdx? (fun c => c = '.') with
  | none => none
  | some r => some (cs.length - 1 - r)

/-- `Path::extension()`: the part after the last `.`, none when there is no
`.` or the only `.` leads the name (a leading-dot file has no extension). -/
def fileExt (name : String) : Option String :=
  match lastDotIdx name.data with
  | none => none
  | some 0 => none
  | some i => some ⟨name.data.drop (i + 1)⟩

/-- `Path::file_stem()`: the part before the last `.` when there is an
extension, else the whole name. -/
def fileStem (name : String) : String :=
  match lastDotIdx name.data with
  | none => name
  | some 0 => name
  | some i => ⟨name.data.take i⟩

/-- `str::lines`: split on newline, no trailing empty line. -/
def rustLines (s : String) : List String :=
  if s = "" then []
  else
    let parts := (splitOnChar '\n' s.data).map (fun l => (⟨l⟩ : String))
    if parts.getLast? = some "" then parts.dropLast else parts

/-- `str::contains(substring)`. -/
def strContains (s pat : String) : Bool :=
  s.data.tails.any (fun t => pat.data.isPrefixOf t)

/-! ## Flat filesystem model -/

/-- A path, as a list of components relative to a root directory. -/
abbrev FPath := List String

/-- File contents: raw text, or bytes that parse as the given JSON value. -/
inductive FData where
  | text (s : String) : FData
  | json (v : JValue) : FData

/-- A directory entry: a directory marker or a file. -/
inductive FNode where
  | dir : FNode
  | file (d : FData) : FNode

/-- A file tree: a flat insertion-ordered association list from paths to
nodes (the root directory itself is implicit and always exists). -/
abbrev Fs := List (FPath × FNode)

/-- Structured `anyhow` errors: one constructor per `bail!`/`context` site,
carrying exactly the values interpolated into the message. -/
inductive Err where
  | unknownLanguage (input canonical : String) : Err
  | mcpNoDir : Err
  | mcpNotFound (name : String) (available : List String) : Err
  | hookNotFound (name : String) (available : List String) : Err
  | hookMissingOld (name : String) : Err
  | mcpServerNotFoundOld (name : String) (available : List String) : Err
  | mcpServersMissingOld : Err
  | clargNotFound (name : String) (available : List String) : Err
  | parseError (p : FPath) : Err
  | readError (p : FPath) : Err
  | notObject (p : FPath) : Err
  | notArray (key : String) (p : FPath) : Err
  | settingsNotObject : Err
  | renderError (what : String) : Err
  | conflictError (paths : List String) : Err
  | aborted : Err
  | ioError (p : FPath) : Err
  | panicked : Err

/-- The list of names an error message enumerates ("Available: {:?}" /
the conflict list). -/
def Err.names : Err → List String
  | .mcpNotFound _ avail => avail
  | .hookNotFound _ avail => avail
  | .mcpServerNotFoundOld _ avail => avail
  | .clargNotFound _ avail => avail
  | .conflictError paths => paths
  | _ => []

/-- Lookup of the node at a path (`None` = no such entry). -/
def getFs (fs : Fs) (p : FPath) : Option FNode :=
  (fs.find? (fun e => e.1 == p)).map (·.2)

/-- `Path::exists()`. -/
def existsFs (fs : Fs) (p : FPath) : Bool :=
  (getFs fs p).isSome

/-- `Path::is_dir()` (the root `[]` is always a directory). -/
def isDirFs (fs : Fs) (p : FPath) : Bool :=
  match p with
  | [] => true
  | _ =>
    match getFs fs p with
    | some .dir => true
    | _ => false

/-- `Path::is_file()`. -/
def isFileFs (fs : Fs) (p : FPath) : Bool :=
  match getFs fs p with
  | some (.file _) => true
  | _ => false

/-- Replace the binding of `p` in place, else append it. -/
def setFs : Fs → FPath → FNode → Fs
  | [], p, n => [(p, n)]
  | e :: rest, p, n => if e.1 == p then (p, n) :: rest else e :: setFs rest p n

/-- `remove_file` / `remove_dir_all`: drop the node and everything below it. -/
def removeFs (fs : Fs) (p : FPath) : Fs :=
  fs.filter (fun e => !(e.1 == p || p.isPrefixOf e.1))

/-- `read_dir`: names of the immediate children of `p`, in stored order. -/
def listFs (fs : Fs) (p : FPath) : List String :=
  fs.filterMap (fun e =>
    if e.1.length = p.length + 1 && p.isPrefixOf e.1 then e.1.getLast? else none)

/-- `fs::read_to_string` on file data (JSON-valued files read back as their
serialized text; the claims never depend on that text). -/
def jsonRenderList (sep lb rb : String) : List String → String
  | [] => lb ++ rb
  | x :: xs => lb ++ x ++ (xs.foldl (fun acc y => acc ++ sep ++ y) "") ++ rb

def jsonRender : JValue → String
  | .null => "null"
  | .bool b => if b then "true" else "false"
  | .num n => toString n
  | .str s => s.quote
  | .arr xs => jsonRenderList "," "[" "]" (xs.attach.map (fun x => jsonRender x.1))
  | .obj kvs =>
    jsonRenderList "," "\x7b" "\x7d"
      (kvs.attach.map (fun e => e.1.1.quote ++ ":" ++ jsonRender e.1.2))
decreasing_by
  · have h1 : sizeOf x.1 < sizeOf xs := List.sizeOf_lt_of_mem x.2
    have h2 : sizeOf (JValue.arr xs) = 1 + sizeOf xs := by simp
    omega
  · rcases e with ⟨⟨k, v⟩, hv⟩
    have h1 : sizeOf ((k, v) : String × JValue) ≤ sizeOf kvs :=
      le_of_lt (List.sizeOf_lt_of_mem hv)
    have h2 : sizeOf ((k, v) : String × JValue) = 1 + sizeOf k + sizeOf v := by
      simp
    have h3 : sizeOf (JValue.obj kvs) = 1 + sizeOf kvs := by simp
    simp only
    omega
/-- `fs::read_to_string`: any file reads back as a string. -/
def readText : FData → String
  | .text s => s
  | .json v => jsonRender v

/-- `fs::create_dir_all`: make every prefix of `p` a directory; fails on a
file occupying one of them. -/
def createDirAll (fs : Fs) (p : FPath) : Except Err Fs :=
  (List.range p.length).foldlM
    (fun acc i =>
      let q := p.take (i + 1)
      match getFs acc q with
      | some .dir => Except.ok acc
      | some (.file _) => Except.error (.ioError q)
      | none => Except.ok (setFs acc q .dir))
    fs

/-- `fs::write`: parent must be a directory; cannot overwrite a directory. -/
def writeFs (fs : Fs) (p : FPath) (d : FData) : Except Err Fs :=
  if p = [] then Except.error (.ioError p)
  else if ¬ (p.dropLast = [] ∨ isDirFs fs p.dropLast) then
    Except.error (.ioError p)
  else
    match getFs fs p with
    | some .dir => Except.error (.ioError p)
    | _ => Except.ok (setFs fs p (.file d))

/-- `fs::copy` of file data to `p` (overwrites a file, fails on a directory,
parent must exist). -/
def fsCopyFile (fs : Fs) (p : FPath) (d : FData) : Except Err Fs :=
  writeFs fs p d

/-- Entries strictly below `sp`, as (relative path, node), in stored order. -/
def subtreeFs (fs : Fs) (sp : FPath) : List (FPath × FNode) :=
  fs.filterMap (fun e =>
    if sp.isPrefixOf e.1 && sp.length < e.1.length then
      some (e.1.drop sp.length, e.2)
    else none)

/-- `copy_dir_recursive(src/sp, dest/dp)`: make `dp`, then mirror every entry
of the source subtree into `dest` (directories via `create_dir_all`, files
via `fs::copy`). -/
def copyTree (src : Fs) (sp : FPath) (dest : Fs) (dp : FPath) : Except Err Fs := do
  let dest₁ ← createDirAll dest dp
  (subtreeFs src sp).foldlM
    (fun acc e =>
      match e.2 with
      | .dir => createDirAll acc (dp ++ e.1)
      | .file d => fsCopyFile acc (dp ++ e.1) d)
    dest₁

/-! ## Language resolution (`resolve_language`, `resolve_all_languages`) -/

inductive LanguageResolution where
  | hasRulesFile (canonical : String) : LanguageResolution
  | conditionalOnly (canonical : String) : LanguageResolution
  | noMatch : LanguageResolution
deriving DecidableEq

/-- The fixed conditional directories checked by `resolve_language`. -/
def conditionalDirs : List String := ["commands", "skills", "copied", "mcp"]

/-- `resolve_language(input, clone_dir)`. -/
def resolve_language (input : String) (clone : Fs) : LanguageResolution :=
  let canonical := canonicalOf input
  if existsFs clone ["claude-md", "lang-rules", canonical ++ ".md"] then
    .hasRulesFile canonical
  else if conditionalDirs.any (fun d => isDirFs clone [d, canonical]) then
    .conditionalOnly canonical
  else
    .noMatch

/-- `resolve_all_languages(inputs, clone_dir)`: push each resolved canonical
name in order, failing on the first `NoMatch`. -/
def resolve_all_languages (inputs : List String) (clone : Fs) :
    Except Err (List String) :=
  match inputs with
  | [] => .ok []
  | lang :: rest =>
    match resolve_language lang clone with
    | .hasRulesFile canonical =>
      (resolve_all_languages rest clone).map (canonical :: ·)
    | .conditionalOnly canonical =>
      (resolve_all_languages rest clone).map (canonical :: ·)
    | .noMatch => .error (.unknownLanguage lang (canonicalOf lang))

/-! ## MCP assembly (`read_json_dir`, `assemble_mcp_json`) -/

/-- Reading a file and parsing it as a JSON object
(`serde_json::from_str::<Map<String, Value>>`).  A `text` file stands for
bytes that do not parse as JSON. -/
def readObjFile (fs : Fs) (p : FPath) : Except Err JObj :=
  match getFs fs p with
  | some (.file (.json (.obj kvs))) => .ok kvs
  | some (.file _) => .error (.parseError p)
  | some .dir => .error (.readError p)
  | none => .error (.readError p)

/-- The `*.json` entries of a directory (extension filter only, as in
`read_json_dir`). -/
def jsonNamesIn (fs : Fs) (p : FPath) : List String :=
  (listFs fs p).filter (fun n => fileExt n == some "json")

/-- One step of `read_json_dir`: read a file and merge its pairs. -/
def readDirStep (fs : Fs) (p : FPath) (acc : JObj) (n : String) :
    Except Err JObj := do
  let o ← readObjFile fs (p ++ [n])
  pure (objExtend acc o)

/-- `read_json_dir`: merge the top-level pairs of every `.json` file in
sorted filename order (empty when not a directory). -/
def read_json_dir (fs : Fs) (p : FPath) : Except Err JObj :=
  if ¬ isDirFs fs p then .ok []
  else (sortStrings (jsonNamesIn fs p)).foldlM (readDirStep fs p) []

/-- The `Available:` list for a missing named MCP: stems of the plain
`.json` files in the directory root, in directory order. -/
def availableJsonStems (fs : Fs) (p : FPath) : List String :=
  ((listFs fs p).filter
      (fun n => isFileFs fs (p ++ [n]) && fileExt n == some "json")).map fileStem

/-- Step 2 of `assemble_mcp_json`: the loop merging `mcp/<lang>/` for each
requested language. -/
def mcpLangStep (clone : Fs) (acc : JObj) (lang : String) : Except Err JObj := do
  let o ← read_json_dir clone ["mcp", lang]
  pure (objExtend acc o)

def mcpLangsFold (clone : Fs) (languages : List String) (s : JObj) :
    Except Err JObj :=
  languages.foldlM (mcpLangStep clone) s

/-- Step 3 of `assemble_mcp_json`: the loop merging each `mcp/<name>.json`
named by `--mcp`, failing with the available stems when absent. -/
def mcpNamedStep (clone : Fs) (acc : JObj) (name : String) : Except Err JObj :=
  if existsFs clone ["mcp", name ++ ".json"] then do
    let o ← readObjFile clone ["mcp", name ++ ".json"]
    pure (objExtend acc o)
  else
    match getFs clone ["mcp"] with
    | some .dir => throw (.mcpNotFound name (availableJsonStems clone ["mcp"]))
    | _ => throw (.readError ["mcp"])

def mcpNamedFold (clone : Fs) (named : List String) (s : JObj) :
    Except Err JObj :=
  named.foldlM (mcpNamedStep clone) s

/-- `assemble_mcp_json(languages, named_mcps, clone_dir)`. -/
def assemble_mcp_json (languages named_mcps : List String) (clone : Fs) :
    Except Err (JValue × List String) :=
  if ¬ existsFs clone ["mcp"] then
    if named_mcps ≠ [] then .error .mcpNoDir
    else .ok (.obj [("mcpServers", .obj [])], [])
  else do
    let d ← read_json_dir clone ["mcp", "default"]
    let s₁ ← mcpLangsFold clone languages (objExtend [] d)
    let s₂ ← mcpNamedFold clone named_mcps s₁
    pure (.obj [("mcpServers", .obj s₂)], s₂.map (·.1))

/-! ## Clarg integration (`setup_clarg`) -/

/-- The `Available:` list for a missing clarg profile: stems of the
`.yaml`/`.yml` entries (extension filter only). -/
def availableYamlStems (fs : Fs) (p : FPath) : List String :=
  ((listFs fs p).filter
      (fun n => fileExt n == some "yaml" || fileExt n == some "yml")).map fileStem

/-- `setup_clarg(name, clone_dir)`: copy `clarg/<name>.yaml` to
`.claude/clarg-<name>.yaml` inside the scratch tree and return the
`PreToolUse` hook entry. -/
def setup_clarg (name : String) (clone : Fs) : Except Err (JValue × Fs) :=
  if ¬ existsFs clone ["clarg", name ++ ".yaml"] then
    .error (.clargNotFound name
      (if isDirFs clone ["clarg"] then availableYamlStems clone ["clarg"] else []))
  else do
    let clone₁ ← createDirAll clone [".claude"]
    let clone₂ ←
      match getFs clone₁ ["clarg", name ++ ".yaml"] with
      | some (.file d) =>
        fsCopyFile clone₁ [".claude", "clarg-" ++ name ++ ".yaml"] d
      | _ => throw (.ioError ["clarg", name ++ ".yaml"])
    pure (.obj [("hooks", .arr [.obj
      [("type", .str "command"),
       ("command", .str ("clarg .claude/" ++ ("clarg-" ++ name ++ ".yaml")))]])],
      clone₂)

/-! ## Settings / hooks (`merge_hook_file`, `build_settings`) -/

/-- Merge one parsed hook object into the accumulator: per event type,
append its entries onto the accumulator's array (created empty if absent).
A non-array value in the file is an error; a non-array value already in the
accumulator would be the `as_array_mut().unwrap()` panic. -/
def merge_hook_obj (dest : JObj) (hookObj : JObj) (p : FPath) : Except Err JObj :=
  hookObj.foldlM
    (fun acc e =>
      match e.2 with
      | .arr entries =>
        match objGet acc e.1 with
        | some (.arr existing) => pure (objInsert acc e.1 (.arr (existing ++ entries)))
        | none => pure (objInsert acc e.1 (.arr entries))
        | some _ => throw .panicked
      | _ => throw (.notArray e.1 p))
    dest

/-- `merge_hook_file(path, dest)`: read, parse as a JSON object, and merge. -/
def merge_hook_file (fs : Fs) (p : FPath) (dest : JObj) : Except Err JObj :=
  match getFs fs p with
  | some (.file (.json (.obj kvs))) => merge_hook_obj dest kvs p
  | some (.file (.json _)) => .error (.notObject p)
  | some (.file (.text _)) => .error (.parseError p)
  | some .dir => .error (.readError p)
  | none => .error (.readError p)

/-- The `hooks/default/*.json` files, sorted by filename. -/
def defaultHookFiles (clone : Fs) : List String :=
  if isDirFs clone ["hooks", "default"] then
    sortStrings (jsonNamesIn clone ["hooks", "default"])
  else []

/-- The hook mapping `build_settings` computes: default files (sorted), then
named hook files (caller order), then the clarg entries appended onto
`PreToolUse`.  Takes no base-settings input — the base document's own hooks
are not consulted. -/
def hooksDefaultFold (clone : Fs) (files : List String) (acc : JObj) :
    Except Err JObj :=
  files.foldlM (fun acc n => merge_hook_file clone ["hooks", "default", n] acc) acc

def hooksNamedStep (clone : Fs) (acc : JObj) (name : String) : Except Err JObj :=
  if existsFs clone ["hooks", name ++ ".json"] then
    merge_hook_file clone ["hooks", name ++ ".json"] acc
  else throw (.hookNotFound name (availableJsonStems clone ["hooks"]))

def hooksNamedFold (clone : Fs) (names : List String) (acc : JObj) :
    Except Err JObj :=
  names.foldlM (hooksNamedStep clone) acc

def clargEntriesFold (entries : List JValue) (acc : JObj) : Except Err JObj :=
  entries.foldlM
    (fun acc entry =>
      match objGet acc "PreToolUse" with
      | some (.arr xs) => pure (objInsert acc "PreToolUse" (.arr (xs ++ [entry])))
      | none => pure (objInsert acc "PreToolUse" (.arr [entry]))
      | some _ => throw .panicked)
    acc

def mergedHooksOf (named_hooks : List String) (clarg_entries : List JValue)
    (clone : Fs) : Except Err JObj := do
  let m₁ ← hooksDefaultFold clone (defaultHookFiles clone) []
  let m₂ ← hooksNamedFold clone named_hooks m₁
  clargEntriesFold clarg_entries m₂

/-- The base settings document of `build_settings`: parse
`settings.local.json` when present, else an empty object. -/
def read_base_settings (clone : Fs) : Except Err JObj :=
  if existsFs clone ["settings.local.json"] then
    match getFs clone ["settings.local.json"] with
    | some (.file (.json (.obj kvs))) => pure kvs
    | some (.file (.json _)) => throw .settingsNotObject
    | some (.file (.text _)) => throw (.parseError ["settings.local.json"])
    | _ => throw (.readError ["settings.local.json"])
  else pure []

/-- `build_settings(named_hooks, clarg_entries, active_mcp_names, clone_dir)`:
read the base settings document, replace its `hooks` and
`enabledMcpjsonServers` keys, write `.claude/settings.local.json`. -/
def build_settings (named_hooks : List String) (clarg_entries : List JValue)
    (active_mcp_names : List String) (clone : Fs) : Except Err Fs := do
  let base : JObj ← read_base_settings clone
  let mh ← mergedHooksOf named_hooks clarg_entries clone
  let out := objInsert (objInsert base "hooks" (.obj mh))
    "enabledMcpjsonServers" (.arr (active_mcp_names.map .str))
  let clone₁ ← createDirAll clone [".claude"]
  writeFs clone₁ [".claude", "settings.local.json"] (.json (.obj out))

/-! ## Rules building and template rendering -/

/-- `<tag>\n<trimmed content>\n</tag>`. -/
def wrapTag (tag content : String) : String :=
  "<" ++ tag ++ ">\n" ++ trimStr content ++ "\n</" ++ tag ++ ">"

/-- `build_language_rules(languages, claude_md_dir)`: wrap each existing
`lang-rules/<canonical>.md`, join with blank lines; missing files skipped. -/
def build_language_rules (languages : List String) (fs : Fs) (base : FPath) :
    Except Err String := do
  let sections ← languages.foldlM
    (fun acc c =>
      let p := base ++ ["lang-rules", c ++ ".md"]
      if ¬ existsFs fs p then pure acc
      else
        match getFs fs p with
        | some (.file d) => pure (acc ++ [wrapTag (c ++ "-rules") (readText d)])
        | _ => throw (.readError p))
    []
  pure (String.intercalate "\n\n" sections)

/-- `build_mcp_rules(active_mcps, claude_md_dir)`: same shape over
`mcp-rules/<name>.md` with `<name>-mcp-rules` tags. -/
def build_mcp_rules (active_mcps : List String) (fs : Fs) (base : FPath) :
    Except Err String := do
  let sections ← active_mcps.foldlM
    (fun acc name =>
      let p := base ++ ["mcp-rules", name ++ ".md"]
      if ¬ existsFs fs p then pure acc
      else
        match getFs fs p with
        | some (.file d) => pure (acc ++ [wrapTag (name ++ "-mcp-rules") (readText d)])
        | _ => throw (.readError p))
    []
  pure (String.intercalate "\n\n" sections)

/-- The minijinja engine: `env.render_str(template, ctx)`.  Theorems
quantify over it. -/
abbrev RenderO := String → JValue → Except Err String

/-- `BTreeMap` collected from (name, true) pairs: sorted unique keys. -/
def presenceDict (l : List String) : JObj :=
  (sortStrings l.eraseDups).map (fun s => (s, .bool true))

/-- `strip_suffix(suffix).unwrap_or(base)`. -/
def stripSuffix (s suffix : String) : String :=
  if endsWithStr s suffix then ⟨s.data.take (s.data.length - suffix.data.length)⟩
  else s

/-- `render_claude_md(languages, active_mcp_names, clone_dir)`. -/
def render_claude_md (render : RenderO) (languages active_mcp_names : List String)
    (clone : Fs) : Except Err String := do
  let templatePath : FPath := ["CLAUDE.md.jinja"]
  let templateContent ←
    match getFs clone templatePath with
    | some (.file d) => pure (readText d)
    | _ => throw (.readError templatePath)
  let langDict := presenceDict languages
  let mcpDict := presenceDict active_mcp_names
  let langRules ← build_language_rules languages clone ["claude-md"]
  let mcpRules ← build_mcp_rules active_mcp_names clone ["claude-md"]
  let ctx₀ : JObj :=
    [("lang", .obj langDict), ("mcp", .obj mcpDict),
     ("lang_rules", .str langRules), ("mcp_rules", .str mcpRules)]
  let ctx ←
    if isDirFs clone ["claude-md", "misc"] then
      let partialCtx : JValue := .obj [("lang", .obj langDict), ("mcp", .obj mcpDict)]
      let files := sortStrings
        ((listFs clone ["claude-md", "misc"]).filter
          (fun n => isFileFs clone ["claude-md", "misc", n]))
      files.foldlM
        (fun acc filename => do
          let content ←
            match getFs clone ["claude-md", "misc", filename] with
            | some (.file d) => pure (readText d)
            | _ => throw (.readError ["claude-md", "misc", filename])
          let isJinja := endsWithStr filename ".jinja"
          let base :=
            if isJinja then (⟨filename.data.take (filename.data.length - 6)⟩ : String)
            else filename
          let tagName := stripSuffix base ".md"
          let varName := replaceDashUnderscore tagName
          let rendered ← if isJinja then render content partialCtx else pure content
          pure (objInsert acc varName (.str (wrapTag tagName rendered))))
        ctx₀
    else pure ctx₀
  render templateContent (.obj ctx)

/-! ## Gitignore, copying, conflicts (lib.rs) -/

/-- `update_gitignore()`: append the template's not-yet-present
`gitignore-additions` lines under a `# Claude related` separator. -/
def update_gitignore (cwd clone : Fs) : Except Err Fs := do
  let additions ←
    match getFs clone ["gitignore-additions"] with
    | some (.file d) => pure (readText d)
    | _ => throw (.readError ["gitignore-additions"])
  let existing ←
    if existsFs cwd [".gitignore"] then
      match getFs cwd [".gitignore"] with
      | some (.file d) => pure (readText d)
      | _ => throw (.readError [".gitignore"])
    else pure ""
  let existingLines := (rustLines existing).map trimStr
  let newEntries := ((rustLines additions).map trimStr).filter
    (fun line => line != "" && !existingLines.contains line)
  if newEntries = [] then pure cwd
  else
    let withNl := if endsWithStr existing "\n" then existing else existing ++ "\n"
    let content := withNl ++ "\n# Claude related\n"
      ++ String.join (newEntries.map (fun e => e ++ "\n"))
    writeFs cwd [".gitignore"] (.text content)

/-- `COPY_FILES_EXCLUDE`. -/
def copyFilesExclude : List String :=
  [".git", "README.md", ".gitignore", "gitignore-additions", "CLAUDE.md.jinja",
   "claude-md", "clarg", "commands", "skills", "copied", "hooks", "mcp",
   "settings.local.json"]

/-- `collect_copy_files_sources(clone_dir)` — the names `copy_files` would
copy into the working directory (source basenames). -/
def collect_copy_files_sources (clone : Fs) : List String :=
  (listFs clone []).filter (fun n => !copyFilesExclude.contains n)

/-- `copy_files(clone_dir)`: copy each non-excluded top-level entry into the
working directory. -/
def copy_files (clone cwd : Fs) : Except Err Fs :=
  (collect_copy_files_sources clone).foldlM
    (fun acc n =>
      match getFs clone [n] with
      | some .dir => copyTree clone [n] acc [n]
      | some (.file d) => fsCopyFile acc [n] d
      | none => pure acc)
    cwd

/-- The contributing subdirectories of a conditional dir:
`default/` first (if a directory), then `<lang>/` in caller order. -/
def conditional_source_dirs (fs : Fs) (sourceDir : FPath) (languages : List String) :
    List FPath :=
  (if isDirFs fs (sourceDir ++ ["default"]) then [sourceDir ++ ["default"]] else [])
    ++ languages.filterMap
      (fun l => if isDirFs fs (sourceDir ++ [l]) then some (sourceDir ++ [l]) else none)

/-- `collect_conditional_dir_sources(source_dir, languages)` — entry
basenames of `default/` plus each present language dir. -/
def collect_conditional_dir_sources (fs : Fs) (sourceDir : FPath)
    (languages : List String) : List String :=
  if ¬ existsFs fs sourceDir then []
  else (conditional_source_dirs fs sourceDir languages).flatMap (fun d => listFs fs d)

/-- `collect_conflicts(sources, dest_dir)`: deduplicate destination names,
keep those that already exist in the working directory. -/
def collect_conflicts (sourceNames : List String) (cwd : Fs) : List String :=
  sourceNames.eraseDups.filter (fun n => existsFs cwd [n])

/-- `copy_conditional_dir(source_dir, languages, dest_dir)`: copy the
contents of `default/` then each language dir into the destination, later
entries overriding same-named earlier ones. -/
def copy_conditional_dir (src : Fs) (sourceDir : FPath) (languages : List String)
    (dest : Fs) (destDir : FPath) : Except Err Fs :=
  if ¬ existsFs src sourceDir then pure dest
  else if conditional_source_dirs src sourceDir languages = [] then pure dest
  else do
    let dest₁ ← createDirAll dest destDir
    (conditional_source_dirs src sourceDir languages).foldlM
      (fun acc d =>
        (listFs src d).foldlM
          (fun acc₂ n =>
            match getFs src (d ++ [n]) with
            | some .dir => copyTree src (d ++ [n]) acc₂ (destDir ++ [n])
            | some (.file fd) => fsCopyFile acc₂ (destDir ++ [n]) fd
            | none => pure acc₂)
          acc)
      dest₁

/-! ## Orchestration (`run_setup`, lib.rs) -/

structure Cli where
  languages : List String
  hooks : List String
  mcp : List String
  clarg : Option String
  force : Bool

/-- The two trees a run works on: the caller's working directory and the
scratch (clone) tree. -/
structure St where
  cwd : Fs
  clone : Fs

/-- Phase 1 of `run_setup` — staging: everything up to the conflict check.
Only the scratch tree is read and written, by construction of the type. -/
def stageClone (render : RenderO) (cli : Cli) (clone : Fs) :
    (Except Err (List String)) × Fs :=
  match resolve_all_languages cli.languages clone with
  | .error e => (.error e, clone)
  | .ok langs =>
    match assemble_mcp_json langs cli.mcp clone with
    | .error e => (.error e, clone)
    | .ok (mcpJson, activeMcps) =>
      match writeFs clone [".mcp.json"] (.json mcpJson) with
      | .error e => (.error e, clone)
      | .ok clone₁ =>
        match render_claude_md render langs activeMcps clone₁ with
        | .error e => (.error e, clone₁)
        | .ok claudeMd =>
          match writeFs clone₁ ["CLAUDE.md"] (.text claudeMd) with
          | .error e => (.error e, clone₁)
          | .ok clone₂ =>
            let clargName :=
              match cli.clarg with
              | some n => some n
              | none =>
                if existsFs clone₂ ["clarg", "default.yaml"] then some "default"
                else none
            match (match clargName with
                   | some n => (setup_clarg n clone₂).map (fun r => ([r.1], r.2))
                   | none => .ok ([], clone₂) :
                   Except Err (List JValue × Fs)) with
            | .error e => (.error e, clone₂)
            | .ok (clargEntries, clone₃) =>
              match build_settings cli.hooks clargEntries activeMcps clone₃ with
              | .error e => (.error e, clone₃)
              | .ok clone₄ =>
                match copy_conditional_dir clone₄ ["commands"] langs clone₄
                    [".claude", "commands"] with
                | .error e => (.error e, clone₄)
                | .ok clone₅ =>
                  match copy_conditional_dir clone₅ ["skills"] langs clone₅
                      [".claude", "skills"] with
                  | .error e => (.error e, clone₅)
                  | .ok clone₆ => (.ok langs, clone₆)

/-- Phase 3 of `run_setup` — committing: `.gitignore`, `copy_files`,
conditional `copied/` tree, in that order. -/
def commitPhase (langs : List String) (st : St) : (Except Err Unit) × St :=
  match update_gitignore st.cwd st.clone with
  | .error e => (.error e, st)
  | .ok cwd₁ =>
    match copy_files st.clone cwd₁ with
    | .error e => (.error e, { st with cwd := cwd₁ })
    | .ok cwd₂ =>
      match copy_conditional_dir st.clone ["copied"] langs cwd₂ [] with
      | .error e => (.error e, { st with cwd := cwd₂ })
      | .ok cwd₃ => (.ok (), { st with cwd := cwd₃ })

/-- `run_setup(cli, clone_dir)`: stage, pre-flight conflict check, commit.
`confirmAns` is the stdin answer to the `--force` overwrite prompt. -/
def run_setup (render : RenderO) (confirmAns : Bool) (cli : Cli) (st : St) :
    (Except Err Unit) × St :=
  match stageClone render cli st.clone with
  | (.error e, clone') => (.error e, { cwd := st.cwd, clone := clone' })
  | (.ok langs, clone') =>
    let targets := collect_copy_files_sources clone'
      ++ collect_conditional_dir_sources clone' ["copied"] langs
    let conflicts := collect_conflicts targets st.cwd
    if conflicts = [] then commitPhase langs { cwd := st.cwd, clone := clone' }
    else if ¬ cli.force then
      (.error (.conflictError conflicts), { cwd := st.cwd, clone := clone' })
    else if ¬ confirmAns then
      (.error .aborted, { cwd := st.cwd, clone := clone' })
    else
      let cwd' := conflicts.foldl (fun acc n => removeFs acc [n]) st.cwd
      commitPhase langs { cwd := cwd', clone := clone' }

/-! ## The binary's older flow (main.rs): its own `run_setup` plus the
remove-scratch-tree-on-error handler in `main` -/

/-- `template_has_conditional(template_content, lang)`: does the template
mention `"lang" in languages` (either quote style)? -/
def template_has_conditional (templateContent lang : String) : Bool :=
  strContains templateContent ("\"" ++ lang ++ "\" in languages")
    || strContains templateContent ("'" ++ lang ++ "' in languages")

/-- `resolve_language(input, rules_dir, template_content)` of main.rs:
rules files live at `rules-templates/<canonical>-rules.md`, and the
conditional check is against the template text. -/
def resolve_language_old (input : String) (clone : Fs) (templateContent : String) :
    LanguageResolution :=
  let canonical := canonicalOf input
  if existsFs clone ["rules-templates", canonical ++ "-rules.md"] then
    .hasRulesFile canonical
  else if template_has_conditional templateContent canonical then
    .conditionalOnly canonical
  else
    .noMatch

/-- `build_language_rules(languages_with_rules, rules_dir)` of main.rs:
every listed language's rules file is read unconditionally. -/
def build_language_rules_old (languages : List String) (clone : Fs) :
    Except Err String := do
  let sections ← languages.foldlM
    (fun acc c =>
      let p := ["rules-templates", c ++ "-rules.md"]
      match getFs clone p with
      | some (.file d) => pure (acc ++ [wrapTag (c ++ "-rules") (readText d)])
      | _ => throw (.readError p))
    []
  pure (String.intercalate "\n\n" sections)

/-- `render_claude_md(languages, rules_dir)` of main.rs: lenient resolution
(`NoMatch` tokens are skipped with a warning), context carries the resolved
language list and the joined rules text. -/
def render_claude_md_old (render : RenderO) (languages : List String) (clone : Fs) :
    Except Err String := do
  let templatePath : FPath := ["rules-templates", "CLAUDE-template.md"]
  let templateContent ←
    match getFs clone templatePath with
    | some (.file d) => pure (readText d)
    | _ => throw (.readError templatePath)
  let resolved := languages.map (fun l => resolve_language_old l clone templateContent)
  let allLanguages := resolved.filterMap
    (fun r => match r with
      | .hasRulesFile c => some c
      | .conditionalOnly c => some c
      | .noMatch => none)
  let withRules := resolved.filterMap
    (fun r => match r with
      | .hasRulesFile c => some c
      | _ => none)
  let languageRules ← build_language_rules_old withRules clone
  render templateContent (.obj
    [("languages", .arr (allLanguages.map .str)),
     ("language_rules", .str languageRules)])

/-- `update_settings_with_hooks(hooks, clone_dir)` of main.rs: merge the
named hook files from `hooks-template/` into `.claude/settings.local.json`
inside the scratch tree. -/
def update_settings_with_hooks_old (hooks : List String) (clone : Fs) :
    Except Err Fs := do
  let settingsPath : FPath := [".claude", "settings.local.json"]
  let base : JObj ←
    if existsFs clone settingsPath then
      match getFs clone settingsPath with
      | some (.file (.json (.obj kvs))) => pure kvs
      | some (.file (.json _)) => throw .settingsNotObject
      | some (.file (.text _)) => throw (.parseError settingsPath)
      | _ => throw (.readError settingsPath)
    else pure []
  let merged ← hooks.foldlM
    (fun acc name =>
      let p := ["hooks-template", name ++ ".json"]
      if ¬ existsFs clone p then throw (.hookMissingOld name)
      else merge_hook_file clone p acc)
    []
  writeFs clone settingsPath (.json (.obj (objInsert base "hooks" (.obj merged))))

/-- `filter_mcp_json(mcp_servers, clone_dir)` of main.rs: keep only the
requested servers in the scratch tree's `.mcp.json`; all requested servers
must exist; an empty result removes the file. -/
def filter_mcp_json_old (mcp_servers : List String) (clone : Fs) :
    Except Err Fs := do
  let p : FPath := [".mcp.json"]
  if ¬ existsFs clone p then pure clone
  else do
    let outer : JObj ←
      match getFs clone p with
      | some (.file (.json (.obj kvs))) => pure kvs
      | some (.file (.json _)) => throw (.notObject p)
      | some (.file (.text _)) => throw (.parseError p)
      | _ => throw (.readError p)
    let servers : JObj ←
      match objGet outer "mcpServers" with
      | some (.obj sv) => pure sv
      | _ => throw .mcpServersMissingOld
    let _ ← mcp_servers.foldlM
      (fun _ name =>
        if servers.any (fun e => e.1 == name) then pure ()
        else throw (.mcpServerNotFoundOld name (servers.map (·.1))))
      ()
    let retained := servers.filter (fun e => mcp_servers.contains e.1)
    if retained.isEmpty then pure (removeFs clone p)
    else writeFs clone p (.json (.obj (objInsert outer "mcpServers" (.obj retained))))

/-- main.rs `copy_files` exclusion list. -/
def copyFilesExcludeOld : List String :=
  [".git", "hooks-template", "rules-templates", "README.md", "gitignore-additions"]

/-- `copy_files(clone_dir)` of main.rs. -/
def copy_files_old (clone cwd : Fs) : Except Err Fs :=
  ((listFs clone []).filter (fun n => !copyFilesExcludeOld.contains n)).foldlM
    (fun acc n =>
      match getFs clone [n] with
      | some .dir => copyTree clone [n] acc [n]
      | some (.file d) => fsCopyFile acc [n] d
      | none => pure acc)
    cwd

structure CliOld where
  languages : List String
  hooks : List String
  mcp : List String

/-- `run_setup(cli, clone_dir, rules_dir)` of main.rs: gitignore first, then
render, hooks, MCP filtering, and the final copy into the working
directory. -/
def run_setup_old (render : RenderO) (cli : CliOld) (st : St) :
    (Except Err Unit) × St :=
  match update_gitignore st.cwd st.clone with
  | .error e => (.error e, st)
  | .ok cwd₁ =>
    match render_claude_md_old render cli.languages st.clone with
    | .error e => (.error e, { cwd := cwd₁, clone := st.clone })
    | .ok claudeMd =>
      match writeFs st.clone ["CLAUDE.md"] (.text claudeMd) with
      | .error e => (.error e, { cwd := cwd₁, clone := st.clone })
      | .ok clone₁ =>
        match update_settings_with_hooks_old cli.hooks clone₁ with
        | .error e => (.error e, { cwd := cwd₁, clone := clone₁ })
        | .ok clone₂ =>
          match filter_mcp_json_old cli.mcp clone₂ with
          | .error e => (.error e, { cwd := cwd₁, clone := clone₂ })
          | .ok clone₃ =>
            match copy_files_old clone₃ cwd₁ with
            | .error e => (.error e, { cwd := cwd₁, clone := clone₃ })
            | .ok cwd₂ => (.ok (), { cwd := cwd₂, clone := clone₃ })

/-- The outcome of `main` after the clone step: the propagated result, the
working directory, and the scratch tree (`none` = removed). -/
structure MainResult where
  res : Except Err Unit
  cwd : Fs
  clone : Option Fs

/-- main.rs lines 462-471 plus the success-path cleanup: run the setup; on
error remove the scratch tree (best effort) and propagate; on success run
`cleanup` (which also removes the scratch tree). -/
def main_after_clone_old (render : RenderO) (cli : CliOld) (st : St) : MainResult :=
  match run_setup_old render cli st with
  | (.error e, st') => { res := .error e, cwd := st'.cwd, clone := none }
  | (.ok _, st') => { res := .ok (), cwd := st'.cwd, clone := none }

/-! ## Observers used to state the hook-merge and MCP-merge properties -/

/-- Is the value a JSON array? -/
def isArrB : JValue → Bool
  | .arr _ => true
  | _ => false

/-- Every value of the object is an array (well-formed hook file shape). -/
def allArrB (o : JObj) : Bool :=
  o.all (fun e => isArrB e.2)

/-- The array bound to `k`, `[]` when absent. -/
def entriesAt (o : JObj) (k : String) : List JValue :=
  match objGet o k with
  | some (.arr xs) => xs
  | _ => []

/-- All entries a hook object contributes under `k`, in order. -/
def hookEntriesAt (o : JObj) (k : String) : List JValue :=
  (o.filter (fun e => e.1 == k)).flatMap
    (fun e => match e.2 with | .arr xs => xs | _ => [])

/-- Concrete two-hook-file tree for the additive-merge example. -/
def exHookF : JObj :=
  [("Notification", .arr [.obj [("command", .str "beep")]])]

def exHookG : JObj :=
  [("Notification", .arr [.obj [("command", .str "notify-lint")]]),
   ("PreToolUse", .arr [.obj [("command", .str "lint")]])]

def exHookFs : Fs :=
  [(["hooks"], .dir),
   (["hooks", "a.json"], .file (.json (.obj exHookF))),
   (["hooks", "b.json"], .file (.json (.obj exHookG)))]

/-- Concrete tree for the missing-named-reference witness: one default MCP,
one hook, one clarg profile. -/
def exC4Clone : Fs :=
  [(["mcp"], .dir),
   (["mcp", "default"], .dir),
   (["mcp", "default", "c.json"], .file (.json (.obj [("c7", .obj [])]))),
   (["hooks"], .dir),
   (["hooks", "sound.json"], .file (.json (.obj [("Notification", .arr [])]))),
   (["clarg"], .dir),
   (["clarg", "a.yaml"], .file (.text "x"))]

/-- The value `assemble_mcp_json [] []` produces on `exC4Clone`. -/
def exC4Asm : JValue × List String :=
  (.obj [("mcpServers", .obj [("c7", .obj [])])], ["c7"])

/-- The tree `build_settings [] [] []` produces on `exC4Clone`. -/
def exC4Settings : Fs :=
  exC4Clone ++ [([".claude"], .dir),
    ([".claude", "settings.local.json"], .file (.json (.obj
      [("hooks", .obj []), ("enabledMcpjsonServers", .arr [])])))]

/-! ## Spec-side view of the MCP merge order (claim C2) -/

/-- The top-level pairs stored in the JSON object file at `p` (empty when
the path is not such a file). -/
def objPairsAt (fs : Fs) (p : FPath) : JObj :=
  match getFs fs p with
  | some (.file (.json (.obj kvs))) => kvs
  | _ => []

/-- The `*.json` files of a directory in sorted order, as full paths. -/
def specDirFiles (fs : Fs) (p : FPath) : List FPath :=
  if isDirFs fs p then (sortStrings (jsonNamesIn fs p)).map (fun n => p ++ [n])
  else []

/-- Every server-definition pair, in the merge order the spec states:
`mcp/default/*.json` sorted, then `mcp/<language>/*.json` per requested
language in caller order (each sorted), then `mcp/<name>.json` per named
server in caller order. -/
def mcpSpecPairs (languages named : List String) (clone : Fs) : JObj :=
  if existsFs clone ["mcp"] then
    (specDirFiles clone ["mcp", "default"]).flatMap (objPairsAt clone)
      ++ languages.flatMap
          (fun l => (specDirFiles clone ["mcp", l]).flatMap (objPairsAt clone))
      ++ named.flatMap (fun n => objPairsAt clone ["mcp", n ++ ".json"])
  else []

/-- Keys are pairwise distinct (every serde map satisfies this). -/
def NodupKeys (o : JObj) : Prop :=
  (o.map (·.1)).Nodup

/-- Concrete fragment tree for the C2 example scenario. -/
def exMcpClone : Fs :=
  [(["mcp"], .dir),
   (["mcp", "default"], .dir),
   (["mcp", "default", "context7.json"],
     .file (.json (.obj [("context7", .obj [("url", .str "c7")])]))),
   (["mcp", "svelte"], .dir),
   (["mcp", "svelte", "svelte.json"],
     .file (.json (.obj [("svelte", .obj [("url", .str "sv")])])))]

/-- Minimal scratch tree for the C10 witness: only the CLAUDE.md template. -/
def exC10Clone : Fs := [(["CLAUDE.md.jinja"], .file (.text ""))]

/-- Trivial renderer for the C10 witness. -/
def exC10Render : RenderO := fun _ _ => .ok ""

/-- CLI with no languages, hooks, MCP servers or clarg, for the C10 witness. -/
def exC10Cli : Cli := ⟨[], [], [], none, false⟩

/-- The scratch tree produced by staging the C10 witness inputs. -/
def exC10Clone' : Fs := (stageClone exC10Render exC10Cli exC10Clone).2

/-- Minimal scratch tree for the C1 witness. -/
def exC1Clone : Fs := [(["CLAUDE.md.jinja"], .file (.text ""))]

/-- Trivial renderer for the C1 witness. -/
def exC1Render : RenderO := fun _ _ => .ok ""

/-- CLI without `--force` for the C1 witness. -/
def exC1Cli : Cli := ⟨[], [], [], none, false⟩

/-- Working directory for the C1 witness: `CLAUDE.md` already exists. -/
def exC1Cwd : Fs := [(["CLAUDE.md"], .file (.text "existing"))]

/-- Program state (working dir plus scratch tree) for the C1 witness. -/
def exC1St : St := ⟨exC1Cwd, exC1Clone⟩

/-- The staged scratch tree of the C1 witness. -/
def exC1Clone' : Fs := (stageClone exC1Render exC1Cli exC1Clone).2

/-- Scratch tree for the C5 counterexample: gitignore additions present but
no `rules-templates/CLAUDE-template.md`, so the old flow fails after writing
`.gitignore`. -/
def exC5Clone : Fs := [(["gitignore-additions"], .file (.text ".claude/\n"))]

/-- Trivial renderer for the C5 counterexample (never reached). -/
def exC5Render : RenderO := fun _ _ => .ok ""

/-- CLI (old flow) for the C5 counterexample. -/
def exC5Cli : CliOld := ⟨[], [], []⟩

/-- State for the C5 counterexample: empty working directory, so no
`.gitignore` exists before the run. -/
def exC5St : St := ⟨[], exC5Clone⟩

/-! ## Theorems and supporting lemmas -/

theorem objGet_nil (k : String) : objGet [] k = none := rfl

theorem objGet_cons (e : String × JValue) (o : JObj) (k : String) :
    objGet (e :: o) k = if e.1 == k then some e.2 else objGet o k := by
  simp only [objGet, List.find?_cons]
  cases he : e.1 == k <;> simp [he]

theorem objGet_objInsert_self (o : JObj) (k : String) (v : JValue) :
    objGet (objInsert o k v) k = some v := by
  induction o with
  | nil => simp [objInsert, objGet_cons, objGet_nil]
  | cons e rest ih =>
    cases he : e.1 == k with
    | true => simp [objInsert, he, objGet_cons]
    | false =>
      simp only [objInsert, he, Bool.false_eq_true, if_false, objGet_cons]
      exact ih

theorem objGet_objInsert_ne (o : JObj) (k : String) (v : JValue) (k' : String)
    (h : k' ≠ k) : objGet (objInsert o k v) k' = objGet o k' := by
  have hkk' : ((k : String) == k') = false := by
    simp only [beq_eq_false_iff_ne, ne_eq]
    exact fun hh => h hh.symm
  induction o with
  | nil => simp [objInsert, objGet_cons, objGet_nil, hkk']
  | cons e rest ih =>
    cases he : e.1 == k with
    | true =>
      have hek : e.1 = k := by simpa using he
      simp [objInsert, he, objGet_cons, hkk', hek]
    | false =>
      simp only [objInsert, he, Bool.false_eq_true, if_false, objGet_cons]
      cases he' : e.1 == k' <;> simp [ih]

theorem objGet_objInsert (o : JObj) (k : String) (v : JValue) (k' : String) :
    objGet (objInsert o k v) k' = if k' = k then some v else objGet o k' := by
  by_cases h : k' = k
  · subst h; simp [objGet_objInsert_self]
  · simp [h, objGet_objInsert_ne o k v k' h]

theorem optOr_assoc {α : Type} (a b c : Option α) :
    optOr (optOr a b) c = optOr a (optOr b c) := by
  cases a <;> cases b <;> rfl

theorem optOr_none_left {α : Type} (b : Option α) : optOr none b = b := rfl

theorem optOr_none_right {α : Type} (a : Option α) : optOr a none = a := by
  cases a <;> rfl

theorem optOr_some_left {α : Type} (v : α) (b : Option α) :
    optOr (some v) b = some v := rfl

theorem lastDef_nil (k : String) : lastDef [] k = none := rfl

theorem lastDef_cons (e : String × JValue) (ps : JObj) (k : String) :
    lastDef (e :: ps) k =
      if e.1 == k then optOr (lastDef ps k) (some e.2) else lastDef ps k := by
  unfold lastDef
  cases he : e.1 == k with
  | false => simp [List.filter_cons, he]
  | true =>
    simp only [List.filter_cons, he, if_true]
    cases hrest : (ps.filter (fun e => e.1 == k)).getLast? with
    | none =>
      have : ps.filter (fun e => e.1 == k) = [] := by
        cases hps : ps.filter (fun e => e.1 == k) with
        | nil => rfl
        | cons x xs => rw [hps] at hrest; simp [List.getLast?] at hrest
      simp [this, optOr]
    | some x =>
      cases hps : ps.filter (fun e => e.1 == k) with
      | nil => rw [hps] at hrest; simp at hrest
      | cons y ys =>
        rw [hps] at hrest
        rw [List.getLast?_cons_cons, hrest]
        simp [optOr]

theorem lastDef_append (ps qs : JObj) (k : String) :
    lastDef (ps ++ qs) k = optOr (lastDef qs k) (lastDef ps k) := by
  induction ps with
  | nil => simp [lastDef_nil, optOr_none_right]
  | cons e rest ih =>
    rw [List.cons_append, lastDef_cons, lastDef_cons, ih]
    cases he : e.1 == k
    · simp
    · simp only [if_true]
      cases lastDef qs k <;> cases lastDef rest k <;> rfl

/-- `Map::extend` is last-wins, pointwise: the binding for `k` after extending
`a` with the pair list `b` is the last binding of `k` in `b`, else `a`'s. -/
theorem objGet_objExtend (b a : JObj) (k : String) :
    objGet (objExtend a b) k = optOr (lastDef b k) (objGet a k) := by
  induction b generalizing a with
  | nil => simp [objExtend, lastDef_nil, optOr]
  | cons e rest ih =>
    show objGet (objExtend (objInsert a e.1 e.2) rest) k = _
    rw [ih, lastDef_cons]
    cases he : e.1 == k with
    | true =>
      have hek : k = e.1 := by
        have := (beq_iff_eq.mp he); exact this.symm
      subst hek
      simp only [if_true]
      rw [optOr_assoc, objGet_objInsert_self]
      rfl
    | false =>
      have hek : k ≠ e.1 := by
        intro hh
        rw [hh] at he
        simp at he
      simp only [Bool.false_eq_true, if_false]
      rw [objGet_objInsert_ne _ _ _ _ hek]

theorem objExtend_append (a : JObj) (b c : JObj) :
    objExtend a (b ++ c) = objExtend (objExtend a b) c := by
  unfold objExtend
  exact List.foldl_append ..

theorem toNat_charOfNat_valid (n : Nat) (h : n < 55296) :
    (Char.ofNat n).toNat = n := by
  have hv : n.isValidChar := Or.inl h
  rw [Char.ofNat, dif_pos hv]
  rfl

theorem lowerChar_idem (c : Char) : lowerChar (lowerChar c) = lowerChar c := by
  unfold lowerChar
  by_cases h : 65 ≤ c.toNat ∧ c.toNat ≤ 90
  · rw [if_pos h]
    have hlt : c.toNat + 32 < 55296 := by omega
    have htn : (Char.ofNat (c.toNat + 32)).toNat = c.toNat + 32 :=
      toNat_charOfNat_valid _ hlt
    rw [if_neg]
    rw [htn]
    omega
  · rw [if_neg h, if_neg h]

theorem lowerStr_idem (s : String) : lowerStr (lowerStr s) = lowerStr s := by
  unfold lowerStr
  cases s with
  | mk data =>
    simp only [List.map_map]
    congr 1
    apply List.map_congr_left
    intro c _
    exact lowerChar_idem c

theorem aliasTable_fixed (s t : String) (h : aliasTable s = some t) :
    canonicalOf t = t := by
  unfold aliasTable at h
  cases hf : aliasPairs.find? (fun e => e.1 == s) with
  | none => rw [hf] at h; simp at h
  | some p =>
    rw [hf] at h
    have h : p.2 = t := by simpa using h
    have hmem : p ∈ aliasPairs := List.mem_of_find?_eq_some hf
    have ht : t ∈ aliasPairs.map (·.2) := by
      rw [← h]; exact List.mem_map_of_mem _ hmem
    simp only [aliasPairs, List.map_cons, List.map_nil, List.mem_cons,
      List.mem_singleton] at ht
    rcases ht with h' | h' | h' | h' | h' | h' | h' | h' | h' | h' | h' | h' |
        h' | h' | h' | h' | h' | h' | h' | h' | h' | h' | h' <;>
      first
        | (subst h'; decide)
        | exact absurd h' (List.not_mem_nil t)


theorem canonicalOf_lowerStr (x : String) :
    canonicalOf (lowerStr x) = canonicalOf x := by
  unfold canonicalOf normalize_language
  rw [lowerStr_idem]

theorem canonicalOf_idem (x : String) :
    canonicalOf (canonicalOf x) = canonicalOf x := by
  cases h : normalize_language x with
  | none =>
    have hx : canonicalOf x = lowerStr x := by
      unfold canonicalOf; rw [h]; rfl
    rw [hx, canonicalOf_lowerStr, hx]
  | some t =>
    have hx : canonicalOf x = t := by
      unfold canonicalOf; rw [h]; rfl
    rw [hx]
    exact aliasTable_fixed (lowerStr x) t h

/-- C9: language normalization is total (a plain function of the token),
case-insensitive (tokens with the same lowercasing normalize identically),
and idempotent (`normalize (normalize x) = normalize x`), where the
canonical form is alias-table lookup on the lowercased token with fallback
to the lowercased token itself. -/
theorem normalize_total_caseInsensitive_idempotent :
    (∀ x : String, canonicalOf (canonicalOf x) = canonicalOf x) ∧
    (∀ x y : String, lowerStr x = lowerStr y → canonicalOf x = canonicalOf y) ∧
    (∀ x : String, canonicalOf x = (aliasTable (lowerStr x)).getD (lowerStr x)) := by
  refine ⟨canonicalOf_idem, ?_, fun _ => rfl⟩
  intro x y h
  unfold canonicalOf normalize_language
  rw [h]

/-- Witness for C9 at concrete inputs. -/
theorem normalize_total_caseInsensitive_idempotent_witness :
    canonicalOf (canonicalOf "TS") = canonicalOf "TS" ∧
    canonicalOf "Ts" = canonicalOf "tS" :=
  ⟨normalize_total_caseInsensitive_idempotent.1 "TS",
   normalize_total_caseInsensitive_idempotent.2.1 "Ts" "tS" (by decide)⟩

theorem resolve_language_cases (input : String) (clone : Fs) :
    resolve_language input clone = .hasRulesFile (canonicalOf input) ∨
    resolve_language input clone = .conditionalOnly (canonicalOf input) ∨
    resolve_language input clone = .noMatch := by
  have heq : resolve_language input clone =
      (if existsFs clone ["claude-md", "lang-rules", canonicalOf input ++ ".md"]
       then .hasRulesFile (canonicalOf input)
       else if conditionalDirs.any (fun d => isDirFs clone [d, canonicalOf input])
       then .conditionalOnly (canonicalOf input)
       else .noMatch) := rfl
  rw [heq]
  cases h₁ : existsFs clone ["claude-md", "lang-rules", canonicalOf input ++ ".md"] with
  | true => simp
  | false =>
    cases h₂ : conditionalDirs.any (fun d => isDirFs clone [d, canonicalOf input]) with
    | true => simp
    | false => simp

/-- C6: `resolve_language` computes `canonical = normalize(token)`, returns
`HasRulesFile canonical` exactly when `claude-md/lang-rules/<canonical>.md`
exists, else `ConditionalOnly canonical` exactly when one of the fixed
conditional directories (`commands`, `skills`, `copied`, `mcp`) has a
`<canonical>` subdirectory, else `NoMatch`; the three cases are exhaustive
and the carried identifier always equals `normalize`'s output. -/
theorem resolve_language_trichotomy (input : String) (clone : Fs) :
    (resolve_language input clone = .hasRulesFile (canonicalOf input) ∨
     resolve_language input clone = .conditionalOnly (canonicalOf input) ∨
     resolve_language input clone = .noMatch) ∧
    (resolve_language input clone = .hasRulesFile (canonicalOf input) ↔
      existsFs clone ["claude-md", "lang-rules", canonicalOf input ++ ".md"] = true) ∧
    (resolve_language input clone = .conditionalOnly (canonicalOf input) ↔
      existsFs clone ["claude-md", "lang-rules", canonicalOf input ++ ".md"] = false ∧
      (conditionalDirs.any (fun d => isDirFs clone [d, canonicalOf input])) = true) ∧
    (resolve_language input clone = .noMatch ↔
      existsFs clone ["claude-md", "lang-rules", canonicalOf input ++ ".md"] = false ∧
      (conditionalDirs.any (fun d => isDirFs clone [d, canonicalOf input])) = false) ∧
    (∀ c : String,
      (resolve_language input clone = .hasRulesFile c ∨
       resolve_language input clone = .conditionalOnly c) → c = canonicalOf input) := by
  have heq : resolve_language input clone =
      (if existsFs clone ["claude-md", "lang-rules", canonicalOf input ++ ".md"]
       then .hasRulesFile (canonicalOf input)
       else if conditionalDirs.any (fun d => isDirFs clone [d, canonicalOf input])
       then .conditionalOnly (canonicalOf input)
       else .noMatch) := rfl
  rw [heq]
  cases h₁ : existsFs clone ["claude-md", "lang-rules", canonicalOf input ++ ".md"] with
  | true => simp
  | false =>
    cases h₂ : conditionalDirs.any (fun d => isDirFs clone [d, canonicalOf input]) with
    | true => simp
    | false => simp

/-- Witness for C6 at a concrete token and tree. -/
theorem resolve_language_trichotomy_witness :
    resolve_language "TS" [(["claude-md"], .dir), (["claude-md", "lang-rules"], .dir),
        (["claude-md", "lang-rules", "typescript.md"], .file (.text "r"))] =
      .hasRulesFile "typescript" :=
  (resolve_language_trichotomy "TS" _).2.1.mpr (by decide)

theorem resolve_all_ok_of_resolvable (clone : Fs) (inputs : List String)
    (h : ∀ i ∈ inputs, resolve_language i clone ≠ .noMatch) :
    resolve_all_languages inputs clone = .ok (inputs.map canonicalOf) := by
  induction inputs with
  | nil => rfl
  | cons x rest ih =>
    have hx : resolve_language x clone ≠ .noMatch := h x (List.mem_cons_self x rest)
    have hrest : ∀ i ∈ rest, resolve_language i clone ≠ .noMatch :=
      fun i hi => h i (List.mem_cons_of_mem x hi)
    rcases resolve_language_cases x clone with hc | hc | hc
    · show resolve_all_languages (x :: rest) clone = _
      unfold resolve_all_languages
      rw [hc, ih hrest]
      rfl
    · show resolve_all_languages (x :: rest) clone = _
      unfold resolve_all_languages
      rw [hc, ih hrest]
      rfl
    · exact absurd hc hx

/-- C7: `resolve_all_languages` maps the token list to the canonical
identifiers in input order, preserving duplicates (output length = input
length when everything resolves), and fails with the unknown-language error
for the first token resolving to `NoMatch`. -/
theorem resolve_all_languages_spec (clone : Fs) :
    (∀ inputs : List String,
      (∀ i ∈ inputs, resolve_language i clone ≠ .noMatch) →
      resolve_all_languages inputs clone = .ok (inputs.map canonicalOf) ∧
      (inputs.map canonicalOf).length = inputs.length) ∧
    (∀ (pre : List String) (x : String) (rest : List String),
      (∀ i ∈ pre, resolve_language i clone ≠ .noMatch) →
      resolve_language x clone = .noMatch →
      resolve_all_languages (pre ++ x :: rest) clone =
        .error (.unknownLanguage x (canonicalOf x))) := by
  constructor
  · intro inputs h
    exact ⟨resolve_all_ok_of_resolvable clone inputs h, List.length_map _ _⟩
  · intro pre x hx
    induction pre with
    | nil =>
      intro _ hxm
      show resolve_all_languages (x :: hx) clone = _
      unfold resolve_all_languages
      rw [hxm]
    | cons y ys ih =>
      intro h hxm
      have hy : resolve_language y clone ≠ .noMatch := h y (List.mem_cons_self y ys)
      have hys : ∀ i ∈ ys, resolve_language i clone ≠ .noMatch :=
        fun i hi => h i (List.mem_cons_of_mem y hi)
      have ihe := ih hys hxm
      show resolve_all_languages (y :: (ys ++ x :: hx)) clone = _
      unfold resolve_all_languages
      rcases resolve_language_cases y clone with hc | hc | hc
      · rw [hc, ihe]; rfl
      · rw [hc, ihe]; rfl
      · exact absurd hc hy

/-- Witness for C7: duplicates preserved in order; first unknown token
reported. -/
theorem resolve_all_languages_spec_witness :
    resolve_all_languages ["ts", "TS"]
        [(["claude-md"], .dir), (["claude-md", "lang-rules"], .dir),
         (["claude-md", "lang-rules", "typescript.md"], .file (.text "r"))] =
      .ok ["typescript", "typescript"] ∧
    resolve_all_languages ["ts", "zz", "qq"]
        [(["claude-md"], .dir), (["claude-md", "lang-rules"], .dir),
         (["claude-md", "lang-rules", "typescript.md"], .file (.text "r"))] =
      .error (.unknownLanguage "zz" "zz") :=
  ⟨((resolve_all_languages_spec _).1 ["ts", "TS"] (by decide)).1,
   (resolve_all_languages_spec _).2 ["ts"] "zz" ["qq"] (by decide) (by decide)⟩

theorem hookEntriesAt_nil (k : String) : hookEntriesAt [] k = [] := rfl

theorem hookEntriesAt_cons (e : String × JValue) (o : JObj) (k : String) :
    hookEntriesAt (e :: o) k =
      (if e.1 == k then (match e.2 with | .arr xs => xs | _ => []) else [])
        ++ hookEntriesAt o k := by
  cases he : e.1 == k <;> simp [hookEntriesAt, List.filter_cons, he]

theorem entriesAt_objInsert_arr_self (o : JObj) (k : String) (xs : List JValue) :
    entriesAt (objInsert o k (.arr xs)) k = xs := by
  simp [entriesAt, objGet_objInsert_self]

theorem entriesAt_objInsert_ne (o : JObj) (k : String) (v : JValue) (k' : String)
    (h : k' ≠ k) : entriesAt (objInsert o k v) k' = entriesAt o k' := by
  simp [entriesAt, objGet_objInsert_ne _ _ _ _ h]

theorem allArrB_objInsert_arr (o : JObj) (k : String) (xs : List JValue)
    (h : allArrB o = true) : allArrB (objInsert o k (.arr xs)) = true := by
  induction o with
  | nil => simp [allArrB, objInsert, isArrB]
  | cons e rest ih =>
    simp only [allArrB, List.all_cons, Bool.and_eq_true] at h
    cases he : e.1 == k with
    | true =>
      simp only [objInsert, he, if_true]
      simp only [allArrB, List.all_cons, Bool.and_eq_true]
      exact ⟨by simp [isArrB], h.2⟩
    | false =>
      simp only [objInsert, he, Bool.false_eq_true, if_false]
      have := ih h.2
      simp only [allArrB, List.all_cons, Bool.and_eq_true]
      exact ⟨h.1, this⟩

theorem allArrB_objGet (o : JObj) (k : String) (v : JValue)
    (ha : allArrB o = true) (hg : objGet o k = some v) : isArrB v = true := by
  unfold objGet at hg
  cases hf : o.find? (fun e => e.1 == k) with
  | none => rw [hf] at hg; simp at hg
  | some e =>
    rw [hf] at hg
    have hmem : e ∈ o := List.mem_of_find?_eq_some hf
    have : isArrB e.2 = true := by
      simp only [allArrB, List.all_eq_true] at ha
      exact ha e hmem
    have hv : e.2 = v := by simpa using hg
    rw [← hv]
    exact this

theorem merge_hook_obj_spec (f : JObj) : ∀ (dest r : JObj) (p : FPath),
    allArrB f = true → allArrB dest = true →
    merge_hook_obj dest f p = .ok r →
    allArrB r = true ∧
      ∀ k, entriesAt r k = entriesAt dest k ++ hookEntriesAt f k := by
  induction f with
  | nil =>
    intro dest r p _ hd hok
    have : r = dest := by
      simp only [merge_hook_obj, List.foldlM_nil] at hok
      exact (Except.ok.injEq .. ▸ hok).symm
    subst this
    exact ⟨hd, fun k => by simp [hookEntriesAt_nil]⟩
  | cons e rest ih =>
    intro dest r p hf hd hok
    simp only [allArrB, List.all_cons, Bool.and_eq_true] at hf
    obtain ⟨hfe, hfrest⟩ := hf
    obtain ⟨es, hes⟩ : ∃ xs, e.2 = .arr xs := by
      cases hv : e.2 <;> simp [isArrB, hv] at hfe ⊢
    simp only [merge_hook_obj, List.foldlM_cons] at hok
    rw [hes] at hok
    -- the step: append onto the existing array (or create it)
    cases hg : objGet dest e.1 with
    | none =>
      rw [hg] at hok
      simp only [bind, Except.bind, pure, Except.pure] at hok
      have hacc := ih (objInsert dest e.1 (.arr es)) r p hfrest
        (allArrB_objInsert_arr dest e.1 es hd) hok
      refine ⟨hacc.1, fun k => ?_⟩
      rw [hacc.2 k, hookEntriesAt_cons, hes]
      by_cases hk : k = e.1
      · rw [hk, entriesAt_objInsert_arr_self]
        have h0 : entriesAt dest e.1 = [] := by simp [entriesAt, hg]
        rw [h0]
        simp
      · rw [entriesAt_objInsert_ne dest e.1 _ k hk]
        have hne : (e.1 == k) = false := by
          simp only [beq_eq_false_iff_ne, ne_eq]
          exact fun hh => hk hh.symm
        rw [hne]
        simp
    | some v =>
      have hva : isArrB v = true := allArrB_objGet dest e.1 v hd hg
      obtain ⟨ex, hex⟩ : ∃ xs, v = .arr xs := by
        cases hv : v <;> simp [isArrB, hv] at hva ⊢
      subst hex
      rw [hg] at hok
      simp only [bind, Except.bind, pure, Except.pure] at hok
      have hacc := ih (objInsert dest e.1 (.arr (ex ++ es))) r p hfrest
        (allArrB_objInsert_arr dest e.1 _ hd) hok
      refine ⟨hacc.1, fun k => ?_⟩
      rw [hacc.2 k, hookEntriesAt_cons, hes]
      by_cases hk : k = e.1
      · rw [hk, entriesAt_objInsert_arr_self]
        have h0 : entriesAt dest e.1 = ex := by simp [entriesAt, hg]
        rw [h0]
        simp [List.append_assoc]
      · rw [entriesAt_objInsert_ne dest e.1 _ k hk]
        have hne : (e.1 == k) = false := by
          simp only [beq_eq_false_iff_ne, ne_eq]
          exact fun hh => hk hh.symm
        rw [hne]
        simp

/-- C3: hook merging is additive, never overwriting — two hook-source files
contributing entries under the same event-type key merge to an array holding
the entries of both, in processing order, with length the sum of the
individual lengths; concretely, `{"Notification":[beep]}` merged with
`{"Notification":[notify-lint],"PreToolUse":[lint]}` yields a `Notification`
array of length 2 and a `PreToolUse` array of length 1. -/
theorem hook_merge_additive :
    (∀ (fs : Fs) (p₁ p₂ : FPath) (f g m r : JObj),
      getFs fs p₁ = some (.file (.json (.obj f))) →
      getFs fs p₂ = some (.file (.json (.obj g))) →
      allArrB f = true → allArrB g = true →
      merge_hook_file fs p₁ [] = .ok m →
      merge_hook_file fs p₂ m = .ok r →
      ∀ k, entriesAt r k = hookEntriesAt f k ++ hookEntriesAt g k ∧
        (entriesAt r k).length =
          (hookEntriesAt f k).length + (hookEntriesAt g k).length) ∧
    (∃ m r : JObj,
      merge_hook_file exHookFs ["hooks", "a.json"] [] = .ok m ∧
      merge_hook_file exHookFs ["hooks", "b.json"] m = .ok r ∧
      (entriesAt r "Notification").length = 2 ∧
      (entriesAt r "PreToolUse").length = 1) := by
  constructor
  · intro fs p₁ p₂ f g m r h₁ h₂ hf hg hm hr
    simp only [merge_hook_file, h₁] at hm
    simp only [merge_hook_file, h₂] at hr
    have s₁ := merge_hook_obj_spec f [] m p₁ hf rfl hm
    have s₂ := merge_hook_obj_spec g m r p₂ hg s₁.1 hr
    intro k
    have e₁ : entriesAt m k = hookEntriesAt f k := by
      have := s₁.2 k
      simpa [entriesAt, objGet_nil] using this
    have e₂ := s₂.2 k
    rw [e₁] at e₂
    exact ⟨e₂, by rw [e₂]; exact List.length_append ..⟩
  · exact ⟨_, _, rfl, rfl, rfl, rfl⟩

/-- Witness for C3's general part, at the example inputs. -/
theorem hook_merge_additive_witness :
    entriesAt (objInsert (objInsert (objExtend [] []) "Notification"
        (.arr [.obj [("command", .str "beep")],
               .obj [("command", .str "notify-lint")]]))
        "PreToolUse" (.arr [.obj [("command", .str "lint")]])) "Notification" =
      hookEntriesAt exHookF "Notification" ++ hookEntriesAt exHookG "Notification" := by
  have h := (hook_merge_additive.1 exHookFs ["hooks", "a.json"] ["hooks", "b.json"]
    exHookF exHookG _ _ rfl rfl rfl rfl rfl rfl "Notification").1
  exact h

theorem getFs_setFs_self (fs : Fs) (p : FPath) (n : FNode) :
    getFs (setFs fs p n) p = some n := by
  induction fs with
  | nil => simp [setFs, getFs]
  | cons e rest ih =>
    cases he : e.1 == p with
    | true => simp [setFs, he, getFs, List.find?_cons]
    | false =>
      simp only [setFs, he, Bool.false_eq_true, if_false, getFs, List.find?_cons, he,
        cond_false]
      exact ih

theorem getFs_setFs_ne (fs : Fs) (p : FPath) (n : FNode) (q : FPath)
    (h : q ≠ p) : getFs (setFs fs p n) q = getFs fs q := by
  have hpq : (p == q) = false := by
    simp only [beq_eq_false_iff_ne, ne_eq]
    exact fun hh => h hh.symm
  induction fs with
  | nil => simp [setFs, getFs, List.find?_cons, hpq]
  | cons e rest ih =>
    cases he : e.1 == p with
    | true =>
      have hep : e.1 = p := by simpa using he
      have : (e.1 == q) = false := by rw [hep]; exact hpq
      simp [setFs, he, getFs, List.find?_cons, hpq, this]
    | false =>
      simp only [setFs, he, Bool.false_eq_true, if_false, getFs, List.find?_cons]
      cases he' : e.1 == q with
      | true => simp
      | false =>
        simp only [cond_false]
        exact ih

theorem writeFs_ok (fs : Fs) (p : FPath) (d : FData) (fs' : Fs)
    (h : writeFs fs p d = .ok fs') : fs' = setFs fs p (.file d) := by
  unfold writeFs at h
  split at h
  · exact absurd h (by simp)
  · split at h
    · exact absurd h (by simp)
    · split at h
      · exact absurd h (by simp)
      · simpa using h.symm

/-- C8: on success, `build_settings` writes a settings object whose non-
`hooks`, non-`enabledMcpjsonServers` keys are exactly those of the base
document, whose `hooks` key is the merged hook mapping computed without
consulting the base document (`mergedHooksOf` takes no base input), and
whose `enabledMcpjsonServers` key is exactly the active MCP name list. -/
theorem build_settings_frame (namedHooks : List String)
    (clargEntries : List JValue) (mcps : List String) (clone clone' : Fs)
    (hok : build_settings namedHooks clargEntries mcps clone = .ok clone') :
    ∃ (base mh : JObj),
      read_base_settings clone = .ok base ∧
      mergedHooksOf namedHooks clargEntries clone = .ok mh ∧
      getFs clone' [".claude", "settings.local.json"] =
        some (.file (.json (.obj (objInsert (objInsert base "hooks" (.obj mh))
          "enabledMcpjsonServers" (.arr (mcps.map .str)))))) ∧
      (∀ k, k ≠ "hooks" → k ≠ "enabledMcpjsonServers" →
        objGet (objInsert (objInsert base "hooks" (.obj mh))
          "enabledMcpjsonServers" (.arr (mcps.map .str))) k = objGet base k) ∧
      objGet (objInsert (objInsert base "hooks" (.obj mh))
        "enabledMcpjsonServers" (.arr (mcps.map .str))) "hooks" = some (.obj mh) ∧
      objGet (objInsert (objInsert base "hooks" (.obj mh))
        "enabledMcpjsonServers" (.arr (mcps.map .str))) "enabledMcpjsonServers" =
        some (.arr (mcps.map .str)) := by
  unfold build_settings at hok
  cases hb : read_base_settings clone with
  | error e => rw [hb] at hok; exact absurd hok (by simp [bind, Except.bind])
  | ok base =>
    rw [hb] at hok
    simp only [bind, Except.bind] at hok
    cases hm : mergedHooksOf namedHooks clargEntries clone with
    | error e => rw [hm] at hok; simp at hok
    | ok mh =>
      rw [hm] at hok
      cases hc : createDirAll clone [".claude"] with
      | error e => rw [hc] at hok; simp at hok
      | ok clone₁ =>
        rw [hc] at hok
        have hw := writeFs_ok _ _ _ _ hok
        subst hw
        refine ⟨base, mh, rfl, rfl, getFs_setFs_self .., ?_, ?_, ?_⟩
        · intro k hk₁ hk₂
          rw [objGet_objInsert_ne _ _ _ _ hk₂, objGet_objInsert_ne _ _ _ _ hk₁]
        · rw [objGet_objInsert_ne _ _ _ _ (by decide), objGet_objInsert_self]
        · rw [objGet_objInsert_self]

/-- Witness for C8 at a concrete base document and inputs: the `permissions`
key survives, the base `hooks` value is discarded, the enabled list is
replaced. -/
theorem build_settings_frame_witness :
    ∃ clone' : Fs,
      build_settings [] [] ["context7"]
        [(["settings.local.json"], .file (.json (.obj
          [("permissions", .str "keep"),
           ("hooks", .obj [("Stop", .arr [])]),
           ("enabledMcpjsonServers", .arr [.str "old"])])))] = .ok clone' ∧
      ∃ base mh : JObj,
        read_base_settings [(["settings.local.json"], .file (.json (.obj
          [("permissions", .str "keep"),
           ("hooks", .obj [("Stop", .arr [])]),
           ("enabledMcpjsonServers", .arr [.str "old"])])))] = .ok base ∧
        mergedHooksOf [] []
          [(["settings.local.json"], .file (.json (.obj
            [("permissions", .str "keep"),
             ("hooks", .obj [("Stop", .arr [])]),
             ("enabledMcpjsonServers", .arr [.str "old"])])))] = .ok mh ∧
        getFs clone' [".claude", "settings.local.json"] =
          some (.file (.json (.obj (objInsert (objInsert base "hooks" (.obj mh))
            "enabledMcpjsonServers" (.arr (["context7"].map .str)))))) ∧
        (∀ k, k ≠ "hooks" → k ≠ "enabledMcpjsonServers" →
          objGet (objInsert (objInsert base "hooks" (.obj mh))
            "enabledMcpjsonServers" (.arr (["context7"].map .str))) k =
            objGet base k) ∧
        objGet (objInsert (objInsert base "hooks" (.obj mh))
          "enabledMcpjsonServers" (.arr (["context7"].map .str))) "hooks" =
          some (.obj mh) ∧
        objGet (objInsert (objInsert base "hooks" (.obj mh))
          "enabledMcpjsonServers" (.arr (["context7"].map .str)))
          "enabledMcpjsonServers" = some (.arr (["context7"].map .str)) :=
  ⟨_, rfl, build_settings_frame [] [] ["context7"] _ _ rfl⟩

theorem ok_bind {e a b : Type} (x : a) (f : a → Except e b) :
    ((Except.ok x : Except e a) >>= f) = f x := rfl

theorem error_bind {e a b : Type} (err : e) (f : a → Except e b) :
    ((Except.error err : Except e a) >>= f) = .error err := rfl

theorem throw_eq {e a : Type} (err : e) : (throw err : Except e a) = .error err := rfl

theorem pure_eq_ok {e a : Type} (x : a) : (pure x : Except e a) = .ok x := rfl

theorem mcpNamedFold_append (clone : Fs) (a b : List String) (s : JObj) :
    mcpNamedFold clone (a ++ b) s =
      (mcpNamedFold clone a s) >>= (fun t => mcpNamedFold clone b t) := by
  unfold mcpNamedFold
  exact List.foldlM_append ..

theorem hooksNamedFold_append (clone : Fs) (a b : List String) (s : JObj) :
    hooksNamedFold clone (a ++ b) s =
      (hooksNamedFold clone a s) >>= (fun t => hooksNamedFold clone b t) := by
  unfold hooksNamedFold
  exact List.foldlM_append ..

theorem existsFs_of_isDirFs (fs : Fs) (p : FPath) (h : isDirFs fs p = true)
    (hp : p ≠ []) : existsFs fs p = true := by
  cases p with
  | nil => exact absurd rfl hp
  | cons a l =>
    unfold isDirFs at h
    unfold existsFs
    cases hg : getFs fs (a :: l) with
    | none => rw [hg] at h; simp at h
    | some n => simp [hg]

/-- C4: a requested name with no corresponding source file always fails the
operation, with the error carrying the enumeration of available names —
for `assemble_mcp_json` (named MCP servers), `build_settings` (named
hooks), and `setup_clarg` (clarg profiles). -/
theorem named_reference_existence :
    (∀ (clone : Fs) (langs pre : List String) (name : String)
        (rest : List String) (x : JValue × List String),
      isDirFs clone ["mcp"] = true →
      assemble_mcp_json langs pre clone = .ok x →
      existsFs clone ["mcp", name ++ ".json"] = false →
      assemble_mcp_json langs (pre ++ name :: rest) clone =
        .error (.mcpNotFound name (availableJsonStems clone ["mcp"]))) ∧
    (∀ (clone : Fs) (pre : List String) (name : String) (rest : List String)
        (clargEntries : List JValue) (mcps : List String) (x : Fs),
      build_settings pre clargEntries mcps clone = .ok x →
      existsFs clone ["hooks", name ++ ".json"] = false →
      ∃ e : Err,
        build_settings (pre ++ name :: rest) clargEntries mcps clone = .error e ∧
        e = .hookNotFound name (availableJsonStems clone ["hooks"])) ∧
    (∀ (clone : Fs) (name : String),
      existsFs clone ["clarg", name ++ ".yaml"] = false →
      setup_clarg name clone = .error (.clargNotFound name
        (if isDirFs clone ["clarg"] then availableYamlStems clone ["clarg"]
         else []))) := by
  refine ⟨?_, ?_, ?_⟩
  · intro clone langs pre name rest x hdir hok hmiss
    have hex : existsFs clone ["mcp"] = true :=
      existsFs_of_isDirFs clone ["mcp"] hdir (by simp)
    have hdir' : getFs clone ["mcp"] = some .dir := by
      unfold isDirFs at hdir
      cases hg : getFs clone ["mcp"] with
      | none => rw [hg] at hdir; simp at hdir
      | some n => cases n with
        | dir => rfl
        | file d => rw [hg] at hdir; simp at hdir
    unfold assemble_mcp_json at hok ⊢
    rw [hex] at hok ⊢
    simp only [Bool.true_eq_false, not_true_eq_false, if_false] at hok ⊢
    cases hd : read_json_dir clone ["mcp", "default"] with
    | error e =>
      simp only [hd, error_bind] at hok
      exact absurd hok (by simp)
    | ok d =>
      simp only [hd, ok_bind] at hok ⊢
      cases hl : mcpLangsFold clone langs (objExtend [] d) with
      | error e =>
        simp only [hl, error_bind] at hok
        exact absurd hok (by simp)
      | ok s₁ =>
        simp only [hl, ok_bind] at hok ⊢
        rw [mcpNamedFold_append]
        cases hp : mcpNamedFold clone pre s₁ with
        | error e =>
          simp only [hp, error_bind] at hok
          exact absurd hok (by simp)
        | ok s₂ =>
          simp only [hp, ok_bind]
          have hstep : mcpNamedFold clone (name :: rest) s₂ =
              .error (.mcpNotFound name (availableJsonStems clone ["mcp"])) := by
            unfold mcpNamedFold
            rw [List.foldlM_cons]
            unfold mcpNamedStep
            rw [hmiss]
            simp only [Bool.false_eq_true, if_false, hdir', throw_eq, error_bind]
          rw [hstep, error_bind]
  · intro clone pre name rest clargEntries mcps x hok hmiss
    unfold build_settings at hok ⊢
    cases hb : read_base_settings clone with
    | error e =>
      simp only [hb, error_bind] at hok
      exact absurd hok (by simp)
    | ok base =>
      simp only [hb, ok_bind] at hok ⊢
      unfold mergedHooksOf at hok ⊢
      cases hdf : hooksDefaultFold clone (defaultHookFiles clone) [] with
      | error e =>
        simp only [hdf, error_bind] at hok
        exact absurd hok (by simp)
      | ok m₁ =>
        simp only [hdf, ok_bind] at hok ⊢
        rw [hooksNamedFold_append]
        cases hnf : hooksNamedFold clone pre m₁ with
        | error e =>
          simp only [hnf, error_bind] at hok
          exact absurd hok (by simp)
        | ok m₂ =>
          simp only [hnf, ok_bind]
          have hstep : hooksNamedFold clone (name :: rest) m₂ =
              .error (.hookNotFound name (availableJsonStems clone ["hooks"])) := by
            unfold hooksNamedFold
            rw [List.foldlM_cons]
            unfold hooksNamedStep
            rw [hmiss]
            simp only [Bool.false_eq_true, if_false, throw_eq, error_bind]
          rw [hstep, error_bind]
          exact ⟨_, rfl, rfl⟩
  · intro clone name hmiss
    unfold setup_clarg
    simp only [hmiss]
    rfl

/-- Witness for C4: each of the three operations fails on a missing name,
enumerating the available stems. -/
theorem named_reference_existence_witness :
    assemble_mcp_json [] (([] : List String) ++ "missing" :: []) exC4Clone =
      .error (.mcpNotFound "missing" (availableJsonStems exC4Clone ["mcp"])) ∧
    (∃ e : Err,
      build_settings (([] : List String) ++ "missing" :: []) [] [] exC4Clone =
        .error e ∧
      e = .hookNotFound "missing" (availableJsonStems exC4Clone ["hooks"])) ∧
    setup_clarg "missing" exC4Clone =
      .error (.clargNotFound "missing"
        (if isDirFs exC4Clone ["clarg"] then availableYamlStems exC4Clone ["clarg"]
         else [])) :=
  ⟨named_reference_existence.1 exC4Clone [] [] "missing" [] exC4Asm (by rfl)
      (by rfl) (by rfl),
   named_reference_existence.2.1 exC4Clone [] "missing" [] [] [] exC4Settings
      (by rfl) (by rfl),
   named_reference_existence.2.2 exC4Clone "missing" (by rfl)⟩

theorem mem_keys_objInsert (o : JObj) (k : String) (v : JValue) (x : String) :
    x ∈ (objInsert o k v).map (·.1) ↔ x ∈ o.map (·.1) ∨ x = k := by
  induction o with
  | nil => simp [objInsert]
  | cons e rest ih =>
    cases he : e.1 == k with
    | true =>
      have hek : e.1 = k := by simpa using he
      simp [objInsert, he, hek]
      tauto
    | false =>
      simp only [objInsert, he, Bool.false_eq_true, if_false, List.map_cons,
        List.mem_cons, ih]
      tauto

theorem nodupKeys_objInsert (o : JObj) (k : String) (v : JValue)
    (h : NodupKeys o) : NodupKeys (objInsert o k v) := by
  induction o with
  | nil => simp [NodupKeys, objInsert]
  | cons e rest ih =>
    simp only [NodupKeys, List.map_cons, List.nodup_cons] at h
    cases he : e.1 == k with
    | true =>
      have hek : e.1 = k := by simpa using he
      simp only [NodupKeys, objInsert, he, if_true, List.map_cons, List.nodup_cons]
      exact ⟨hek ▸ h.1, h.2⟩
    | false =>
      have hek : e.1 ≠ k := by simpa using he
      simp only [NodupKeys, objInsert, he, Bool.false_eq_true, if_false,
        List.map_cons, List.nodup_cons]
      refine ⟨?_, ih h.2⟩
      rw [mem_keys_objInsert]
      rintro (hm | hm)
      · exact h.1 hm
      · exact hek hm

theorem nodupKeys_objExtend (a b : JObj) (h : NodupKeys a) :
    NodupKeys (objExtend a b) := by
  induction b generalizing a with
  | nil => exact h
  | cons e rest ih =>
    show NodupKeys (objExtend (objInsert a e.1 e.2) rest)
    exact ih _ (nodupKeys_objInsert a e.1 e.2 h)

theorem lastDef_eq_none_of_not_mem (o : JObj) (k : String)
    (h : k ∉ o.map (·.1)) : lastDef o k = none := by
  induction o with
  | nil => rfl
  | cons e rest ih =>
    simp only [List.map_cons, List.mem_cons] at h
    push_neg at h
    have he : (e.1 == k) = false := by
      simp only [beq_eq_false_iff_ne, ne_eq]
      exact fun hh => h.1 hh.symm
    rw [lastDef_cons, he]
    simp only [Bool.false_eq_true, if_false]
    exact ih h.2

theorem lastDef_eq_objGet_of_nodup (o : JObj) (h : NodupKeys o) (k : String) :
    lastDef o k = objGet o k := by
  induction o with
  | nil => rfl
  | cons e rest ih =>
    simp only [NodupKeys, List.map_cons, List.nodup_cons] at h
    rw [lastDef_cons, objGet_cons]
    cases he : e.1 == k with
    | true =>
      have hek : e.1 = k := by simpa using he
      have : lastDef rest k = none :=
        lastDef_eq_none_of_not_mem rest k (hek ▸ h.1)
      simp [this, optOr]
    | false =>
      simp only [Bool.false_eq_true, if_false]
      exact ih h.2

theorem objPairsAt_of_readObjFile_ok (fs : Fs) (p : FPath) (o : JObj)
    (h : readObjFile fs p = .ok o) : objPairsAt fs p = o := by
  unfold readObjFile at h
  unfold objPairsAt
  cases hg : getFs fs p with
  | none => rw [hg] at h; simp at h
  | some n =>
    rw [hg] at h
    cases n with
    | dir => simp at h
    | file d =>
      cases d with
      | text s => simp at h
      | json v =>
        cases v <;> simp_all

theorem readDirFold_spec (clone : Fs) (p : FPath) (files : List String) :
    ∀ (acc o : JObj),
    files.foldlM (readDirStep clone p) acc = .ok o →
    NodupKeys acc →
    NodupKeys o ∧
      ∀ k, objGet o k =
        optOr (lastDef ((files.map (fun n => p ++ [n])).flatMap (objPairsAt clone)) k)
          (objGet acc k) := by
  induction files with
  | nil =>
    intro acc o h hacc
    simp only [List.foldlM_nil, pure_eq_ok] at h
    cases h
    exact ⟨hacc, fun k => by simp [lastDef_nil, optOr]⟩
  | cons n ns ih =>
    intro acc o h hacc
    rw [List.foldlM_cons] at h
    cases hro : readObjFile clone (p ++ [n]) with
    | error e =>
      unfold readDirStep at h
      rw [hro] at h
      simp only [error_bind] at h
      exact absurd h (by simp)
    | ok ob =>
      unfold readDirStep at h
      rw [hro] at h
      simp only [ok_bind, pure_eq_ok] at h
      have hob : objPairsAt clone (p ++ [n]) = ob :=
        objPairsAt_of_readObjFile_ok clone (p ++ [n]) ob hro
      have hrec := ih (objExtend acc ob) o h (nodupKeys_objExtend acc ob hacc)
      refine ⟨hrec.1, fun k => ?_⟩
      rw [hrec.2 k, objGet_objExtend]
      simp only [List.map_cons, List.flatMap_cons, hob]
      rw [lastDef_append, optOr_assoc]

theorem read_json_dir_spec (clone : Fs) (p : FPath) (o : JObj)
    (h : read_json_dir clone p = .ok o) :
    NodupKeys o ∧
      ∀ k, objGet o k =
        lastDef ((specDirFiles clone p).flatMap (objPairsAt clone)) k := by
  unfold read_json_dir at h
  unfold specDirFiles
  cases hd : isDirFs clone p with
  | false =>
    rw [hd] at h
    simp only [Bool.false_eq_true, not_false_eq_true, if_true] at h
    cases h
    simp only [Bool.false_eq_true, if_false]
    exact ⟨List.nodup_nil, fun k => rfl⟩
  | true =>
    rw [hd] at h
    simp only [not_true_eq_false, if_false] at h
    have := readDirFold_spec clone p (sortStrings (jsonNamesIn clone p)) [] o h
      List.nodup_nil
    refine ⟨this.1, fun k => ?_⟩
    rw [this.2 k, objGet_nil, optOr_none_right]
    simp

theorem mcpLangsFold_spec (clone : Fs) (langs : List String) :
    ∀ (acc o : JObj),
    mcpLangsFold clone langs acc = .ok o →
    NodupKeys acc →
    NodupKeys o ∧
      ∀ k, objGet o k =
        optOr
          (lastDef (langs.flatMap
            (fun l => (specDirFiles clone ["mcp", l]).flatMap (objPairsAt clone))) k)
          (objGet acc k) := by
  induction langs with
  | nil =>
    intro acc o h hacc
    simp only [mcpLangsFold, List.foldlM_nil, pure_eq_ok] at h
    cases h
    exact ⟨hacc, fun k => by simp [lastDef_nil, optOr]⟩
  | cons l ls ih =>
    intro acc o h hacc
    simp only [mcpLangsFold, List.foldlM_cons] at h
    cases hr : read_json_dir clone ["mcp", l] with
    | error e =>
      unfold mcpLangStep at h
      rw [hr] at h
      simp only [error_bind] at h
      exact absurd h (by simp)
    | ok dl =>
      unfold mcpLangStep at h
      rw [hr] at h
      simp only [ok_bind, pure_eq_ok] at h
      have hspec := read_json_dir_spec clone ["mcp", l] dl hr
      have hrec := ih (objExtend acc dl) o h (nodupKeys_objExtend acc dl hacc)
      refine ⟨hrec.1, fun k => ?_⟩
      rw [hrec.2 k, objGet_objExtend]
      have hdl : lastDef dl k = objGet dl k :=
        lastDef_eq_objGet_of_nodup dl hspec.1 k
      rw [hdl, hspec.2 k]
      simp only [List.flatMap_cons]
      rw [lastDef_append, optOr_assoc]

theorem mcpNamedFold_spec (clone : Fs) (named : List String) :
    ∀ (acc o : JObj),
    mcpNamedFold clone named acc = .ok o →
    NodupKeys acc →
    NodupKeys o ∧
      ∀ k, objGet o k =
        optOr
          (lastDef (named.flatMap
            (fun n => objPairsAt clone ["mcp", n ++ ".json"])) k)
          (objGet acc k) := by
  induction named with
  | nil =>
    intro acc o h hacc
    simp only [mcpNamedFold, List.foldlM_nil, pure_eq_ok] at h
    cases h
    exact ⟨hacc, fun k => by simp [lastDef_nil, optOr]⟩
  | cons n ns ih =>
    intro acc o h hacc
    simp only [mcpNamedFold, List.foldlM_cons] at h
    cases hex : existsFs clone ["mcp", n ++ ".json"] with
    | false =>
      unfold mcpNamedStep at h
      rw [hex] at h
      simp only [Bool.false_eq_true, if_false] at h
      cases hg : getFs clone ["mcp"] with
      | none => rw [hg] at h; simp only [throw_eq, error_bind] at h; simp at h
      | some nd =>
        rw [hg] at h
        cases nd <;> simp only [throw_eq, error_bind] at h <;> simp at h
    | true =>
      unfold mcpNamedStep at h
      rw [hex] at h
      simp only [if_true] at h
      cases hro : readObjFile clone ["mcp", n ++ ".json"] with
      | error e =>
        rw [hro] at h
        simp only [error_bind] at h
        exact absurd h (by simp)
      | ok ob =>
        rw [hro] at h
        simp only [ok_bind, pure_eq_ok] at h
        have hob : objPairsAt clone ["mcp", n ++ ".json"] = ob :=
          objPairsAt_of_readObjFile_ok clone _ ob hro
        have hrec := ih (objExtend acc ob) o h (nodupKeys_objExtend acc ob hacc)
        refine ⟨hrec.1, fun k => ?_⟩
        rw [hrec.2 k, objGet_objExtend]
        simp only [List.flatMap_cons, hob]
        rw [lastDef_append, optOr_assoc]

/-- C2: `assemble_mcp_json` merges server definitions in exactly the stated
order — `mcp/default/*.json` sorted by filename, then `mcp/<language>/*.json`
per requested language in caller order (sorted per directory), then
`mcp/<name>.json` per named server in caller order — with a later source
overwriting an earlier one on a same-named key: the resulting binding of
every server name is its last definition in that source order.  On the
concrete example tree the assembly yields both `context7` and `svelte` and a
names list of length 2. -/
theorem mcp_merge_order :
    (∀ (clone : Fs) (languages named : List String) (v : JValue)
        (names : List String),
      assemble_mcp_json languages named clone = .ok (v, names) →
      ∃ servers : JObj,
        v = .obj [("mcpServers", .obj servers)] ∧
        names = servers.map (·.1) ∧
        ∀ k, objGet servers k = lastDef (mcpSpecPairs languages named clone) k) ∧
    (assemble_mcp_json ["svelte"] [] exMcpClone =
      .ok (.obj [("mcpServers", .obj
        [("context7", .obj [("url", .str "c7")]),
         ("svelte", .obj [("url", .str "sv")])])],
        ["context7", "svelte"]) ∧
     (["context7", "svelte"] : List String).length = 2) := by
  constructor
  · intro clone languages named v names hok
    unfold assemble_mcp_json at hok
    unfold mcpSpecPairs
    cases hex : existsFs clone ["mcp"] with
    | false =>
      rw [hex] at hok
      simp only [Bool.false_eq_true, not_false_eq_true, if_true] at hok
      cases named with
      | cons m ms => simp at hok
      | nil =>
        simp only [ne_eq, not_true_eq_false, if_false] at hok
        have hv : v = .obj [("mcpServers", .obj [])] ∧ names = [] := by
          cases hok
          exact ⟨rfl, rfl⟩
        refine ⟨[], hv.1, by simp [hv.2], fun k => ?_⟩
        simp [objGet_nil, lastDef_nil]
    | true =>
      rw [hex] at hok
      simp only [not_true_eq_false, if_false] at hok
      cases hd : read_json_dir clone ["mcp", "default"] with
      | error e =>
        rw [hd] at hok
        simp only [error_bind] at hok
        exact absurd hok (by simp)
      | ok d =>
        rw [hd] at hok
        simp only [ok_bind] at hok
        cases hl : mcpLangsFold clone languages (objExtend [] d) with
        | error e =>
          rw [hl] at hok
          simp only [error_bind] at hok
          exact absurd hok (by simp)
        | ok s₁ =>
          rw [hl] at hok
          simp only [ok_bind] at hok
          cases hn : mcpNamedFold clone named s₁ with
          | error e =>
            rw [hn] at hok
            simp only [error_bind] at hok
            exact absurd hok (by simp)
          | ok s₂ =>
            rw [hn] at hok
            simp only [pure_eq_ok] at hok
            have hv : v = .obj [("mcpServers", .obj s₂)] ∧
                names = s₂.map (·.1) := by
              cases hok
              exact ⟨rfl, rfl⟩
            have hdspec := read_json_dir_spec clone ["mcp", "default"] d hd
            have hlspec := mcpLangsFold_spec clone languages (objExtend [] d) s₁ hl
              (nodupKeys_objExtend [] d List.nodup_nil)
            have hnspec := mcpNamedFold_spec clone named s₁ s₂ hn hlspec.1
            refine ⟨s₂, hv.1, hv.2, fun k => ?_⟩
            rw [hnspec.2 k, hlspec.2 k, objGet_objExtend, objGet_nil,
              optOr_none_right]
            have hdd : lastDef d k = objGet d k :=
              lastDef_eq_objGet_of_nodup d hdspec.1 k
            rw [hdd, hdspec.2 k]
            simp only [eq_self_iff_true, if_true]
            rw [lastDef_append, lastDef_append]
  · exact ⟨rfl, rfl⟩

/-- Witness for C2's general part, applied on the example tree. -/
theorem mcp_merge_order_witness :
    ∃ servers : JObj,
      (JValue.obj [("mcpServers", .obj
        [("context7", .obj [("url", .str "c7")]),
         ("svelte", .obj [("url", .str "sv")])])]) =
          .obj [("mcpServers", .obj servers)] ∧
      ["context7", "svelte"] = servers.map (·.1) ∧
      ∀ k, objGet servers k = lastDef (mcpSpecPairs ["svelte"] [] exMcpClone) k :=
  mcp_merge_order.1 exMcpClone ["svelte"] [] _ _ (by rfl)

theorem except_foldlM_preserve {α : Type} (step : Fs → α → Except Err Fs)
    (q : FPath) (l : List α)
    (h : ∀ fs a fs', a ∈ l → step fs a = .ok fs' → getFs fs' q = getFs fs q) :
    ∀ init out, l.foldlM step init = .ok out → getFs out q = getFs init q := by
  induction l with
  | nil =>
    intro init out hf
    simp only [List.foldlM_nil, pure_eq_ok] at hf
    cases hf
    rfl
  | cons a as ih =>
    intro init out hf
    rw [List.foldlM_cons] at hf
    cases hs : step init a with
    | error e =>
      rw [hs] at hf
      simp only [error_bind] at hf
      exact absurd hf (by simp)
    | ok mid =>
      rw [hs] at hf
      simp only [ok_bind] at hf
      have h₁ : getFs mid q = getFs init q :=
        h init a mid (List.mem_cons_self a as) hs
      have h₂ : getFs out q = getFs mid q :=
        ih (fun fs b fs' hb => h fs b fs' (List.mem_cons_of_mem a hb)) mid out hf
      rw [h₂, h₁]

theorem createDirAll_preserve (fs : Fs) (p : FPath) (fs' : Fs) (q : FPath)
    (hok : createDirAll fs p = .ok fs')
    (hq : ∀ i : Nat, p.take (i + 1) ≠ q) : getFs fs' q = getFs fs q := by
  unfold createDirAll at hok
  refine except_foldlM_preserve _ q (List.range p.length) ?_ fs fs' hok
  intro fs₀ i fs₁ _ hstep
  simp only at hstep
  cases hg : getFs fs₀ (p.take (i + 1)) with
  | none =>
    rw [hg] at hstep
    simp only [Except.ok.injEq] at hstep
    rw [← hstep]
    exact getFs_setFs_ne fs₀ (p.take (i + 1)) .dir q (fun hh => hq i hh.symm)
  | some n =>
    rw [hg] at hstep
    cases n with
    | dir =>
      simp only [Except.ok.injEq] at hstep
      rw [← hstep]
    | file d => simp at hstep

theorem writeFs_preserve (fs : Fs) (p : FPath) (d : FData) (fs' : Fs)
    (q : FPath) (hok : writeFs fs p d = .ok fs') (hq : p ≠ q) :
    getFs fs' q = getFs fs q := by
  rw [writeFs_ok fs p d fs' hok]
  exact getFs_setFs_ne fs p (.file d) q (fun hh => hq hh.symm)

theorem take_append_ne (dp r q : FPath) (i : Nat)
    (hq1 : ∀ j : Nat, dp.take (j + 1) ≠ q)
    (hq2 : ∀ s : FPath, dp ++ s ≠ q) : (dp ++ r).take (i + 1) ≠ q := by
  rw [List.take_append_eq_append_take]
  by_cases hle : i + 1 ≤ dp.length
  · have h0 : i + 1 - dp.length = 0 := by omega
    rw [h0, List.take_zero, List.append_nil]
    exact hq1 i
  · have : dp.take (i + 1) = dp := List.take_of_length_le (by omega)
    rw [this]
    exact hq2 _

theorem copyTree_preserve (src : Fs) (sp : FPath) (dest : Fs) (dp : FPath)
    (fs' : Fs) (q : FPath) (hok : copyTree src sp dest dp = .ok fs')
    (hq1 : ∀ j : Nat, dp.take (j + 1) ≠ q)
    (hq2 : ∀ s : FPath, dp ++ s ≠ q) : getFs fs' q = getFs dest q := by
  unfold copyTree at hok
  cases hc : createDirAll dest dp with
  | error e =>
    rw [hc] at hok
    simp only [error_bind] at hok
    exact absurd hok (by simp)
  | ok dest₁ =>
    rw [hc] at hok
    simp only [ok_bind] at hok
    have h₁ : getFs dest₁ q = getFs dest q :=
      createDirAll_preserve dest dp dest₁ q hc hq1
    have h₂ : getFs fs' q = getFs dest₁ q := by
      refine except_foldlM_preserve _ q (subtreeFs src sp) ?_ dest₁ fs' hok
      rintro fs₀ ⟨rel, node⟩ fs₁ _ hstep
      cases node with
      | dir =>
        exact createDirAll_preserve fs₀ (dp ++ rel) fs₁ q hstep
          (fun j => take_append_ne dp rel q j hq1 hq2)
      | file d =>
        exact writeFs_preserve fs₀ (dp ++ rel) d fs₁ q hstep (hq2 rel)
    rw [h₂, h₁]

theorem copy_conditional_dir_preserve (src : Fs) (sourceDir : FPath)
    (languages : List String) (dest : Fs) (destDir : FPath) (fs' : Fs)
    (q : FPath)
    (hok : copy_conditional_dir src sourceDir languages dest destDir = .ok fs')
    (hq1 : ∀ j : Nat, destDir.take (j + 1) ≠ q)
    (hq2 : ∀ s : FPath, destDir ++ s ≠ q) : getFs fs' q = getFs dest q := by
  unfold copy_conditional_dir at hok
  split at hok
  · cases hok; rfl
  · split at hok
    · cases hok; rfl
    · cases hc : createDirAll dest destDir with
      | error e =>
        rw [hc] at hok
        simp only [error_bind] at hok
        exact absurd hok (by simp)
      | ok dest₁ =>
        rw [hc] at hok
        simp only [ok_bind] at hok
        have h₁ : getFs dest₁ q = getFs dest q :=
          createDirAll_preserve dest destDir dest₁ q hc hq1
        have h₂ : getFs fs' q = getFs dest₁ q := by
          refine except_foldlM_preserve _ q _ ?_ dest₁ fs' hok
          intro fs₀ d fs₁ _ hstep
          refine except_foldlM_preserve _ q _ ?_ fs₀ fs₁ hstep
          intro fs₂ n fs₃ _ hstep₂
          cases hg : getFs src (d ++ [n]) with
          | none =>
            rw [hg] at hstep₂
            simp only [pure_eq_ok] at hstep₂
            cases hstep₂
            rfl
          | some node =>
            rw [hg] at hstep₂
            cases node with
            | dir =>
              refine copyTree_preserve src (d ++ [n]) fs₂ (destDir ++ [n]) fs₃ q
                hstep₂ (fun j => take_append_ne destDir [n] q j hq1 hq2) ?_
              intro s
              rw [List.append_assoc]
              exact hq2 ([n] ++ s)
            | file fd =>
              exact writeFs_preserve fs₂ (destDir ++ [n]) fd fs₃ q hstep₂
                (hq2 [n])
        rw [h₂, h₁]

theorem take_singleton_ne (a : String) (q : FPath) (h : ([a] : FPath) ≠ q) :
    ∀ j : Nat, ([a] : FPath).take (j + 1) ≠ q := by
  intro j
  rw [List.take_of_length_le (by simp)]
  exact h

theorem take_pair_ne (a b : String) (q : FPath) (h1 : ([a] : FPath) ≠ q)
    (h2 : ([a, b] : FPath) ≠ q) : ∀ j : Nat, ([a, b] : FPath).take (j + 1) ≠ q := by
  intro j
  match j with
  | 0 => simpa using h1
  | Nat.succ m =>
    rw [List.take_of_length_le (by simp)]
    exact h2

theorem append_pair_ne_single (a b x : String) :
    ∀ s : FPath, ([a, b] : FPath) ++ s ≠ [x] := by
  intro s h
  have := congrArg List.length h
  simp at this

theorem map_ok {e a b : Type} (f : a → b) (x : a) :
    (f <$> (Except.ok x : Except e a)) = .ok (f x) := rfl

theorem map_error {e a b : Type} (f : a → b) (err : e) :
    (f <$> (Except.error err : Except e a)) = .error err := rfl

theorem setup_clarg_preserve (n : String) (clone : Fs) (entry : JValue)
    (clone' : Fs) (q : FPath) (h : setup_clarg n clone = .ok (entry, clone'))
    (hq1 : ([".claude"] : FPath) ≠ q)
    (hq2 : ∀ nm : String, ([".claude", nm] : FPath) ≠ q) :
    getFs clone' q = getFs clone q := by
  unfold setup_clarg at h
  cases hex : existsFs clone ["clarg", n ++ ".yaml"] with
  | false =>
    rw [hex] at h
    simp at h
  | true =>
    rw [hex] at h
    simp only [Bool.true_eq_false, if_false] at h
    cases hc : createDirAll clone [".claude"] with
    | error e =>
      rw [hc] at h
      simp only [error_bind] at h
      exact absurd h (by simp)
    | ok clone₁ =>
      rw [hc] at h
      simp only [ok_bind] at h
      have h₁ : getFs clone₁ q = getFs clone q :=
        createDirAll_preserve clone [".claude"] clone₁ q hc
          (take_singleton_ne ".claude" q hq1)
      cases hg : getFs clone₁ ["clarg", n ++ ".yaml"] with
      | none =>
        rw [hg] at h
        simp [throw_eq] at h
      | some node =>
        rw [hg] at h
        cases node with
        | dir => simp [throw_eq] at h
        | file d =>
          simp only [not_true, if_false] at h
          cases hw : fsCopyFile clone₁ [".claude", "clarg-" ++ n ++ ".yaml"] d with
          | error e =>
            rw [hw] at h
            simp at h
          | ok clone₂ =>
            rw [hw] at h
            simp only [not_true, if_false, ok_bind, pure_eq_ok, Except.ok.injEq,
              Prod.mk.injEq] at h
            have h₂ : getFs clone₂ q = getFs clone₁ q :=
              writeFs_preserve clone₁ _ d clone₂ q hw
                (hq2 ("clarg-" ++ n ++ ".yaml"))
            obtain ⟨-, h3⟩ := h
            rw [← h3, h₂, h₁]

theorem build_settings_preserve (nh : List String) (ce : List JValue)
    (mcps : List String) (clone clone' : Fs) (q : FPath)
    (h : build_settings nh ce mcps clone = .ok clone')
    (hq1 : ([".claude"] : FPath) ≠ q)
    (hq2 : ([".claude", "settings.local.json"] : FPath) ≠ q) :
    getFs clone' q = getFs clone q := by
  unfold build_settings at h
  cases hb : read_base_settings clone with
  | error e =>
    rw [hb] at h
    simp only [error_bind] at h
    exact absurd h (by simp)
  | ok base =>
    rw [hb] at h
    simp only [ok_bind] at h
    cases hm : mergedHooksOf nh ce clone with
    | error e =>
      rw [hm] at h
      simp only [error_bind] at h
      exact absurd h (by simp)
    | ok mh =>
      rw [hm] at h
      simp only [ok_bind] at h
      cases hc : createDirAll clone [".claude"] with
      | error e =>
        rw [hc] at h
        simp only [error_bind] at h
        exact absurd h (by simp)
      | ok clone₁ =>
        rw [hc] at h
        simp only [ok_bind] at h
        have h₁ : getFs clone₁ q = getFs clone q :=
          createDirAll_preserve clone [".claude"] clone₁ q hc
            (take_singleton_ne ".claude" q hq1)
        have h₂ : getFs clone' q = getFs clone₁ q :=
          writeFs_preserve clone₁ _ _ clone' q h hq2
        rw [h₂, h₁]

theorem assemble_mcp_json_empty (langs : List String) (clone : Fs)
    (hex : existsFs clone ["mcp"] = false) :
    assemble_mcp_json langs [] clone =
      .ok (.obj [("mcpServers", .obj [])], []) := by
  unfold assemble_mcp_json
  rw [hex]
  simp


/-- C10: with no `mcp` directory and no named MCP servers, `assemble_mcp_json`
succeeds with the empty `{"mcpServers": {}}` document and an empty active-name
list, and the staging phase of `run_setup` still writes `.mcp.json` holding
that empty mapping into the scratch tree — the file is never omitted. -/
theorem empty_mcp_always_written (render : RenderO) (cli : Cli) (clone : Fs)
    (langs : List String) (clone' : Fs)
    (hex : existsFs clone ["mcp"] = false)
    (hmcp : cli.mcp = [])
    (hst : stageClone render cli clone = (.ok langs, clone')) :
    assemble_mcp_json langs cli.mcp clone =
      .ok (.obj [("mcpServers", .obj [])], []) ∧
    getFs clone' [".mcp.json"] =
      some (.file (.json (.obj [("mcpServers", .obj [])]))) := by
  obtain ⟨clL, clH, clM, clC, clF⟩ := cli
  simp only at hmcp
  subst hmcp
  have hq1 : ([".claude"] : FPath) ≠ [".mcp.json"] := by decide
  have hq2 : ∀ nm : String, ([".claude", nm] : FPath) ≠ [".mcp.json"] := by
    intro nm h
    simp at h
  unfold stageClone at hst
  cases hr : resolve_all_languages clL clone with
  | error e => simp [hr] at hst
  | ok langs₀ =>
    have ha := assemble_mcp_json_empty langs₀ clone hex
    simp only [hr, ha] at hst
    cases hw : writeFs clone [".mcp.json"]
        (FData.json (JValue.obj [("mcpServers", JValue.obj [])])) with
    | error e => simp [hw] at hst
    | ok clone₁ =>
      simp only [hw] at hst
      have hm₁ : getFs clone₁ [".mcp.json"] =
          some (.file (.json (.obj [("mcpServers", .obj [])]))) := by
        rw [writeFs_ok clone [".mcp.json"] _ clone₁ hw]
        exact getFs_setFs_self ..
      cases hrc : render_claude_md render langs₀ [] clone₁ with
      | error e => simp [hrc] at hst
      | ok claudeMd =>
        simp only [hrc] at hst
        cases hw₂ : writeFs clone₁ ["CLAUDE.md"] (FData.text claudeMd) with
        | error e => simp [hw₂] at hst
        | ok clone₂ =>
          simp only [hw₂] at hst
          have hm₂ : getFs clone₂ [".mcp.json"] =
              some (.file (.json (.obj [("mcpServers", .obj [])]))) := by
            rw [writeFs_preserve clone₁ ["CLAUDE.md"] (.text claudeMd) clone₂
              [".mcp.json"] hw₂ (by decide)]
            exact hm₁
          cases clC with
          | none =>
            cases hdf : existsFs clone₂ ["clarg", "default.yaml"] with
            | false =>
              simp only [hdf, Bool.false_eq_true, if_false] at hst
              cases hbs : build_settings clH [] [] clone₂ with
              | error e => simp [hbs] at hst
              | ok clone₄ =>
                simp only [hbs] at hst
                have hm₄ : getFs clone₄ [".mcp.json"] =
                    some (.file (.json (.obj [("mcpServers", .obj [])]))) := by
                  rw [build_settings_preserve clH [] [] clone₂ clone₄
                    [".mcp.json"] hbs hq1 (hq2 "settings.local.json")]
                  exact hm₂
                cases hcc : copy_conditional_dir clone₄ ["commands"] langs₀
                    clone₄ [".claude", "commands"] with
                | error e => simp [hcc] at hst
                | ok clone₅ =>
                  simp only [hcc] at hst
                  have hm₅ : getFs clone₅ [".mcp.json"] =
                      some (.file (.json (.obj [("mcpServers", .obj [])]))) := by
                    rw [copy_conditional_dir_preserve clone₄ ["commands"] langs₀
                      clone₄ [".claude", "commands"] clone₅ [".mcp.json"] hcc
                      (take_pair_ne ".claude" "commands" [".mcp.json"]
                        (by decide) (by decide))
                      (append_pair_ne_single ".claude" "commands" ".mcp.json")]
                    exact hm₄
                  cases hcs : copy_conditional_dir clone₅ ["skills"] langs₀
                      clone₅ [".claude", "skills"] with
                  | error e => simp [hcs] at hst
                  | ok clone₆ =>
                    simp only [hcs] at hst
                    have hm₆ : getFs clone₆ [".mcp.json"] =
                        some (.file (.json (.obj [("mcpServers", .obj [])]))) := by
                      rw [copy_conditional_dir_preserve clone₅ ["skills"] langs₀
                        clone₅ [".claude", "skills"] clone₆ [".mcp.json"] hcs
                        (take_pair_ne ".claude" "skills" [".mcp.json"]
                          (by decide) (by decide))
                        (append_pair_ne_single ".claude" "skills" ".mcp.json")]
                      exact hm₅
                    simp only [Prod.mk.injEq, Except.ok.injEq] at hst
                    obtain ⟨hl, hc⟩ := hst
                    subst hl
                    subst hc
                    exact ⟨ha, hm₆⟩
            | true =>
              simp only [hdf, eq_self_iff_true, if_true] at hst
              cases hsc : setup_clarg "default" clone₂ with
              | error e => simp [hsc, Except.map] at hst
              | ok pr =>
                obtain ⟨entry, clone₃⟩ := pr
                simp only [hsc, Except.map] at hst
                have hm₃ : getFs clone₃ [".mcp.json"] =
                    some (.file (.json (.obj [("mcpServers", .obj [])]))) := by
                  rw [setup_clarg_preserve "default" clone₂ entry clone₃
                    [".mcp.json"] hsc hq1 hq2]
                  exact hm₂
                cases hbs : build_settings clH [entry] [] clone₃ with
                | error e => simp [hbs] at hst
                | ok clone₄ =>
                  simp only [hbs] at hst
                  have hm₄ : getFs clone₄ [".mcp.json"] =
                      some (.file (.json (.obj [("mcpServers", .obj [])]))) := by
                    rw [build_settings_preserve clH [entry] [] clone₃ clone₄
                      [".mcp.json"] hbs hq1 (hq2 "settings.local.json")]
                    exact hm₃
                  cases hcc : copy_conditional_dir clone₄ ["commands"] langs₀
                      clone₄ [".claude", "commands"] with
                  | error e => simp [hcc] at hst
                  | ok clone₅ =>
                    simp only [hcc] at hst
                    have hm₅ : getFs clone₅ [".mcp.json"] =
                        some (.file (.json (.obj [("mcpServers", .obj [])]))) := by
                      rw [copy_conditional_dir_preserve clone₄ ["commands"]
                        langs₀ clone₄ [".claude", "commands"] clone₅
                        [".mcp.json"] hcc
                        (take_pair_ne ".claude" "commands" [".mcp.json"]
                          (by decide) (by decide))
                        (append_pair_ne_single ".claude" "commands" ".mcp.json")]
                      exact hm₄
                    cases hcs : copy_conditional_dir clone₅ ["skills"] langs₀
                        clone₅ [".claude", "skills"] with
                    | error e => simp [hcs] at hst
                    | ok clone₆ =>
                      simp only [hcs] at hst
                      have hm₆ : getFs clone₆ [".mcp.json"] =
                          some (.file (.json (.obj [("mcpServers", .obj [])]))) := by
                        rw [copy_conditional_dir_preserve clone₅ ["skills"]
                          langs₀ clone₅ [".claude", "skills"] clone₆
                          [".mcp.json"] hcs
                          (take_pair_ne ".claude" "skills" [".mcp.json"]
                            (by decide) (by decide))
                          (append_pair_ne_single ".claude" "skills" ".mcp.json")]
                        exact hm₅
                      simp only [Prod.mk.injEq, Except.ok.injEq] at hst
                      obtain ⟨hl, hc⟩ := hst
                      subst hl
                      subst hc
                      exact ⟨ha, hm₆⟩
          | some n =>
            cases hsc : setup_clarg n clone₂ with
            | error e => simp [hsc, Except.map] at hst
            | ok pr =>
              obtain ⟨entry, clone₃⟩ := pr
              simp only [hsc, Except.map] at hst
              have hm₃ : getFs clone₃ [".mcp.json"] =
                  some (.file (.json (.obj [("mcpServers", .obj [])]))) := by
                rw [setup_clarg_preserve n clone₂ entry clone₃
                  [".mcp.json"] hsc hq1 hq2]
                exact hm₂
              cases hbs : build_settings clH [entry] [] clone₃ with
              | error e => simp [hbs] at hst
              | ok clone₄ =>
                simp only [hbs] at hst
                have hm₄ : getFs clone₄ [".mcp.json"] =
                    some (.file (.json (.obj [("mcpServers", .obj [])]))) := by
                  rw [build_settings_preserve clH [entry] [] clone₃ clone₄
                    [".mcp.json"] hbs hq1 (hq2 "settings.local.json")]
                  exact hm₃
                cases hcc : copy_conditional_dir clone₄ ["commands"] langs₀
                    clone₄ [".claude", "commands"] with
                | error e => simp [hcc] at hst
                | ok clone₅ =>
                  simp only [hcc] at hst
                  have hm₅ : getFs clone₅ [".mcp.json"] =
                      some (.file (.json (.obj [("mcpServers", .obj [])]))) := by
                    rw [copy_conditional_dir_preserve clone₄ ["commands"] langs₀
                      clone₄ [".claude", "commands"] clone₅ [".mcp.json"] hcc
                      (take_pair_ne ".claude" "commands" [".mcp.json"]
                        (by decide) (by decide))
                      (append_pair_ne_single ".claude" "commands" ".mcp.json")]
                    exact hm₄
                  cases hcs : copy_conditional_dir clone₅ ["skills"] langs₀
                      clone₅ [".claude", "skills"] with
                  | error e => simp [hcs] at hst
                  | ok clone₆ =>
                    simp only [hcs] at hst
                    have hm₆ : getFs clone₆ [".mcp.json"] =
                        some (.file (.json (.obj [("mcpServers", .obj [])]))) := by
                      rw [copy_conditional_dir_preserve clone₅ ["skills"] langs₀
                        clone₅ [".claude", "skills"] clone₆ [".mcp.json"] hcs
                        (take_pair_ne ".claude" "skills" [".mcp.json"]
                          (by decide) (by decide))
                        (append_pair_ne_single ".claude" "skills" ".mcp.json")]
                      exact hm₅
                    simp only [Prod.mk.injEq, Except.ok.injEq] at hst
                    obtain ⟨hl, hc⟩ := hst
                    subst hl
                    subst hc
                    exact ⟨ha, hm₆⟩

/-- Witness for C10 at a concrete input: staging a minimal template with no
`mcp` directory and no `--mcp` flags still produces `.mcp.json` with an empty
`mcpServers` object. -/
theorem empty_mcp_always_written_witness :
    getFs exC10Clone' [".mcp.json"] =
      some (.file (.json (.obj [("mcpServers", .obj [])]))) :=
  (empty_mcp_always_written exC10Render exC10Cli exC10Clone [] exC10Clone'
    (by decide) rfl rfl).2

theorem mem_eraseDups_loop (as bs : List String) (x : String) :
    x ∈ List.eraseDups.loop as bs ↔ x ∈ as ∨ x ∈ bs := by
  induction as generalizing bs with
  | nil => simp [List.eraseDups.loop]
  | cons a as ih =>
    rw [List.eraseDups.loop]
    cases he : bs.elem a with
    | true =>
      have ha : a ∈ bs := by
        have := List.elem_iff.mp he
        exact this
      simp only [ih]
      constructor
      · intro h
        rcases h with h | h
        · exact Or.inl (List.mem_cons_of_mem a h)
        · exact Or.inr h
      · intro h
        rcases h with h | h
        · rcases List.mem_cons.mp h with h | h
          · exact Or.inr (h ▸ ha)
          · exact Or.inl h
        · exact Or.inr h
    | false =>
      simp only [ih, List.mem_cons]
      tauto

theorem mem_eraseDups (l : List String) (x : String) :
    x ∈ l.eraseDups ↔ x ∈ l := by
  unfold List.eraseDups
  rw [mem_eraseDups_loop]
  simp

/-- C1: if staging succeeded, at least one destination already exists in the
working directory, and `--force` was not given, then `run_setup` fails with a
`conflictError` whose list is the full de-duplicated set of existing
destinations (every conflicting path is included, not just the first), the
working directory is returned byte-for-byte unchanged, and the scratch tree is
left in place. -/
theorem conflict_atomicity (render : RenderO) (confirmAns : Bool) (cli : Cli)
    (st : St) (langs : List String) (clone' : Fs)
    (hforce : cli.force = false)
    (hst : stageClone render cli st.clone = (.ok langs, clone'))
    (hconf : collect_conflicts
        (collect_copy_files_sources clone'
          ++ collect_conditional_dir_sources clone' ["copied"] langs)
        st.cwd ≠ []) :
    run_setup render confirmAns cli st =
      (.error (.conflictError (collect_conflicts
          (collect_copy_files_sources clone'
            ++ collect_conditional_dir_sources clone' ["copied"] langs)
          st.cwd)),
        { cwd := st.cwd, clone := clone' }) ∧
    ∀ n ∈ collect_copy_files_sources clone'
        ++ collect_conditional_dir_sources clone' ["copied"] langs,
      existsFs st.cwd [n] = true →
      n ∈ collect_conflicts
        (collect_copy_files_sources clone'
          ++ collect_conditional_dir_sources clone' ["copied"] langs)
        st.cwd := by
  constructor
  · unfold run_setup
    rw [hst]
    simp only [hforce, Bool.false_eq_true, not_false_eq_true, if_true,
      if_neg hconf]
  · intro n hn hex
    unfold collect_conflicts
    rw [List.mem_filter]
    exact ⟨(mem_eraseDups _ n).mpr hn, hex⟩

/-- Witness for C1 at a concrete input: with `CLAUDE.md` already present in
the working directory, `run_setup` fails with a `conflictError` naming it and
hands back the working directory unchanged. -/
theorem conflict_atomicity_witness :
    run_setup exC1Render true exC1Cli exC1St =
      (.error (.conflictError ["CLAUDE.md"]),
        { cwd := exC1Cwd, clone := exC1Clone' }) :=
  (conflict_atomicity exC1Render true exC1Cli exC1St [] exC1Clone'
    rfl rfl (by decide)).1

/-- C5 (amended): on any failure of the old-flow setup, `main` removes the
scratch tree and propagates the error, but attempts no rollback of the
working directory — the latter is handed back exactly as the failed run left
it. -/
theorem rollback_scratch_only (render : RenderO) (cli : CliOld) (st : St)
    (e : Err) (h : (run_setup_old render cli st).1 = .error e) :
    main_after_clone_old render cli st =
      { res := .error e, cwd := (run_setup_old render cli st).2.cwd,
        clone := none } := by
  unfold main_after_clone_old
  cases hr : run_setup_old render cli st with
  | mk r st' =>
    rw [hr] at h
    simp only at h
    subst h
    rfl

/-- Counterexample to C5 as stated: the working directory held no
`.gitignore` before the run; the old flow writes one, then fails reading the
missing template; `main` deletes the scratch tree and propagates the error,
yet the freshly created `.gitignore` is left behind — no `.gitignore`
rollback is attempted. -/
theorem gitignore_not_rolled_back :
    existsFs exC5St.cwd [".gitignore"] = false ∧
    (main_after_clone_old exC5Render exC5Cli exC5St).res =
      .error (.readError ["rules-templates", "CLAUDE-template.md"]) ∧
    (main_after_clone_old exC5Render exC5Cli exC5St).clone = none ∧
    getFs (main_after_clone_old exC5Render exC5Cli exC5St).cwd [".gitignore"] =
      some (.file (.text "\n\n# Claude related\n.claude/\n")) :=
  ⟨rfl, rfl, rfl, rfl⟩

/-- Witness for the amended C5 theorem at the counterexample input. -/
theorem rollback_scratch_only_witness :
    main_after_clone_old exC5Render exC5Cli exC5St =
      { res := .error (.readError ["rules-templates", "CLAUDE-template.md"]),
        cwd := (run_setup_old exC5Render exC5Cli exC5St).2.cwd,
        clone := none } :=
  rollback_scratch_only exC5Render exC5Cli exC5St
    (.readError ["rules-templates", "CLAUDE-template.md"]) rfl
